import Mathlib

/-!
Verification of the persistent-shell SSH execution engine (ssh-liaison-mcp).

Shallow embedding of the Rust sources `src/ssh/channel.rs`, `src/ssh/config.rs`
and `src/mcp/tools.rs`.  Rust `String`/`&str` values are modelled as `List Char`
(the sources only manipulate ASCII here; byte positions and char positions
coincide on the inputs considered).  The SSH channel is modelled as a script of
read events; real-time conditions (the 30-second deadline, the 500 ms idle
window) are modelled as boolean flags carried by the events, sampled exactly
where the code samples its clocks.  The filesystem and the HOME variable
consumed by the config parser are explicit parameters.
-/

namespace SshLiaison

/-- The ASCII escape character (`\x1b`), which starts every terminal escape
sequence handled by `clean_ansi_sequences`. -/
def escChar : Char := '\x1b'

/-- Rust `char::is_whitespace`, restricted to its ASCII cases (the sources only
meet ASCII whitespace). -/
def rustIsWhitespace (c : Char) : Bool :=
  c = ' ' ∨ c = '\t' ∨ c = '\n' ∨ c = '\r' ∨ c = '\x0b' ∨ c = '\x0c'

/-- Rust `str::trim_end`: drop trailing whitespace. -/
def rustTrimEnd (l : List Char) : List Char :=
  (l.reverse.dropWhile rustIsWhitespace).reverse

/-- Rust `str::trim`: drop leading and trailing whitespace. -/
def rustTrim (l : List Char) : List Char :=
  rustTrimEnd (l.dropWhile rustIsWhitespace)

/-- Rust `str::split_whitespace`: maximal runs of non-whitespace characters. -/
def splitWsAux : List Char → List Char → List (List Char)
  | [], acc => if acc.isEmpty then [] else [acc.reverse]
  | c :: t, acc =>
    if rustIsWhitespace c then
      if acc.isEmpty then splitWsAux t [] else acc.reverse :: splitWsAux t []
    else splitWsAux t (c :: acc)

/-- Rust `str::split_whitespace`. -/
def splitWs (l : List Char) : List (List Char) := splitWsAux l []

/-- Split a char list at every `'\n'`, keeping all (possibly empty) segments. -/
def splitNl : List Char → List (List Char)
  | [] => [[]]
  | c :: t =>
    if c = '\n' then [] :: splitNl t
    else match splitNl t with
      | [] => [[c]]
      | s :: ss => (c :: s) :: ss

/-- Drop one trailing `'\r'`, as Rust `str::lines` does per line. -/
def stripCR (s : List Char) : List Char :=
  if s.getLast? = some '\r' then s.dropLast else s

/-- Rust `str::lines`: split on `'\n'`, no trailing empty line, each line
stripped of one trailing `'\r'`. -/
def rustLines (l : List Char) : List (List Char) :=
  let segs := splitNl l
  let segs := if segs.getLast? = some ([] : List Char) then segs.dropLast else segs
  segs.map stripCR

/-- Rust `str::find` for a literal pattern: index of the first position where
`pat` occurs in `l` (`some 0` when `pat` is empty, as in Rust). -/
def listFind : List Char → List Char → Option Nat
  | [], pat => if pat.isPrefixOf [] then some 0 else none
  | c :: t, pat =>
    if pat.isPrefixOf (c :: t) then some 0
    else (listFind t pat).map (· + 1)

/-- Rust `str::contains` for a literal pattern. -/
def containsSub (l pat : List Char) : Bool :=
  (listFind l pat).isSome

/-- `pat` occurs in `l` at index `i`. -/
def occursAt (l pat : List Char) (i : Nat) : Bool :=
  pat.isPrefixOf (l.drop i)

/-! ## Embedding of `src/ssh/channel.rs` -/

/-- `CommandOutput` (channel.rs): captured stdout and stderr of one command. -/
structure CommandOutput where
  stdout : List Char
  stderr : List Char
deriving DecidableEq, Repr

/-- `CommandOutput::combined` (channel.rs lines 50-62): stdout, then a
separating newline if needed, then stderr; empty-after-trim parts skipped. -/
def CommandOutput.combined (o : CommandOutput) : List Char :=
  let result : List Char := if (rustTrim o.stdout).isEmpty then [] else o.stdout
  if (rustTrim o.stderr).isEmpty then result
  else
    (if ¬ result.isEmpty ∧ ¬ (result.getLast? = some '\n') then result ++ ['\n']
     else result) ++ o.stderr

/-- The string `"<command>; echo <marker>"` used by `remove_command_echo`
(channel.rs line 84, `format!("{}; echo {}", command, marker)` without the
trailing newline). -/
def full_command_echo (command marker : List Char) : List Char :=
  command ++ "; echo ".toList ++ marker

/-- The full line written to the channel by `execute_command`
(channel.rs line 117): `"<command>; echo <marker>\n"`. -/
def mkFullCommand (command marker : List Char) : List Char :=
  full_command_echo command marker ++ ['\n']

/-- The complete list of writes `execute_command` performs on the channel:
the source contains exactly one `write_all` (channel.rs line 124), before the
read loop, and no other write anywhere in the function. -/
def executeCommandWrites (command marker : List Char) : List (List Char) :=
  [mkFullCommand command marker]

/-- Worker for `find_last_marker_position`: scan forward, each search resuming
after the end of the previous match (channel.rs lines 72-81,
`search_pos = abs_pos + marker.len()`).  `fuel` only guards the (unreachable
for nonempty markers) case of an empty marker, where the Rust loop would not
terminate; every use supplies `fuel = output.length + 1`, which is enough for
any nonempty marker. -/
def findLastMarkerAux (marker : List Char) : Nat → List Char → Option Nat
  | 0, _ => none
  | fuel + 1, s =>
    match listFind s marker with
    | none => none
    | some pos =>
      match findLastMarkerAux marker fuel (s.drop (pos + marker.length)) with
      | none => some pos
      | some p => some (pos + marker.length + p)

/-- `find_last_marker_position` (channel.rs lines 72-81): position of the last
occurrence of `marker` found by a forward scan that resumes after each match.
No own-line (preceded-by-newline) condition is applied anywhere. -/
def find_last_marker_position (output marker : List Char) : Option Nat :=
  findLastMarkerAux marker (output.length + 1) output

/-- The truncation applied in `execute_command` (channel.rs lines 209-213):
cut the buffer at the position returned by `find_last_marker_position`.
The `none` branch is unreachable where this is used (the buffer already
contains the marker); the Rust code would fall through and keep looping. -/
def truncateAtLastMarker (output marker : List Char) : List Char :=
  match find_last_marker_position output marker with
  | some pos => output.take pos
  | none => output

/-- Worker for `remove_command_echo`: repeatedly find and excise the literal
`"<command>; echo <marker>"` (channel.rs lines 83-88).  Each excision removes
`full.length ≥ 7` characters, so `fuel = output.length + 1` always suffices. -/
def removeEchoAux (full : List Char) : Nat → List Char → List Char
  | 0, out => out
  | fuel + 1, out =>
    match listFind out full with
    | none => out
    | some pos => removeEchoAux full fuel (out.take pos ++ out.drop (pos + full.length))

/-- `remove_command_echo` (channel.rs lines 83-88): excise every occurrence of
the echoed command line, rescanning from the start after each removal. -/
def remove_command_echo (output command marker : List Char) : List Char :=
  removeEchoAux (full_command_echo command marker) (output.length + 1) output

/-! ### The three escape-sequence cleaning passes (channel.rs lines 263-280)

Each Rust pass is `Regex::replace_all(text, "")`: scan left to right, delete
the leftmost match, resume after it, and on a failed match attempt advance one
character.  `replAllAux` implements exactly that discipline given a matcher
that recognises a match at the head of the remaining text. -/

/-- Matcher for the CSI regex `\x1b\[[0-9;]*[a-zA-Z]`: at the head of `s`,
consume `ESC [`, a maximal run of digits/semicolons, then one ASCII letter;
return the remainder.  (The run before the terminator is necessarily maximal,
since a letter is not a digit or semicolon, so greedy matching never needs to
backtrack.) -/
def csiMatchHead : List Char → Option (List Char)
  | '\x1b' :: '[' :: t =>
    match t.dropWhile (fun c => c.isDigit ∨ c = ';') with
    | c :: r => if ('a' ≤ c ∧ c ≤ 'z') ∨ ('A' ≤ c ∧ c ≤ 'Z') then some r else none
    | [] => none
  | _ => none

/-- Matcher for the OSC regex `\x1b\][^\x07]*\x07`: `ESC ]`, then everything up
to and including the first BEL. -/
def oscMatchHead : List Char → Option (List Char)
  | '\x1b' :: ']' :: t =>
    match t.dropWhile (fun c => ¬ c = '\x07') with
    | _ :: r => some r
    | [] => none
  | _ => none

/-- Lazy scan for the `.*?\x1b\\` tail of the DCS/APC/PM regex: find the first
`ESC \`, failing if a newline (which `.` does not match) intervenes. -/
def dcsScan : List Char → Option (List Char)
  | '\x1b' :: '\\' :: r => some r
  | '\n' :: _ => none
  | _ :: t => dcsScan t
  | [] => none

/-- Matcher for the DCS/APC/PM regex `\x1b[P^_].*?\x1b\\`. -/
def dcsMatchHead : List Char → Option (List Char)
  | '\x1b' :: k :: t =>
    if k = 'P' ∨ k = '^' ∨ k = '_' then dcsScan t else none
  | _ => none

/-- `Regex::replace_all(text, "")` for a head matcher `m`: delete the leftmost
match, resume after it; on failure keep one character and retry.  Every
matcher above consumes at least three characters per match, so
`fuel = s.length + 1` always suffices. -/
def replAllAux (m : List Char → Option (List Char)) : Nat → List Char → List Char
  | 0, s => s
  | _, [] => []
  | fuel + 1, c :: t =>
    match m (c :: t) with
    | some rest => replAllAux m fuel rest
    | none => c :: replAllAux m fuel t

/-- One full `replace_all` pass. -/
def cleanPass (m : List Char → Option (List Char)) (s : List Char) : List Char :=
  replAllAux m (s.length + 1) s

/-- `clean_ansi_sequences` (channel.rs lines 263-280): three `replace_all`
passes, in source order — CSI, then OSC, then DCS/APC/PM. -/
def clean_ansi_sequences (text : List Char) : List Char :=
  cleanPass dcsMatchHead (cleanPass oscMatchHead (cleanPass csiMatchHead text))

/-- The value `execute_command` returns from a raw accumulated buffer
(channel.rs lines 250-255): clean escapes, trim trailing whitespace, empty
stderr. -/
def finishOutput (raw : List Char) : CommandOutput :=
  { stdout := rustTrimEnd (clean_ansi_sequences raw), stderr := [] }

/-- One read event on the channel, as observed by the loops of
`execute_command`.  `idle` models `last_read_time.elapsed() > 500ms` sampled
at that event. -/
inductive ChanEv where
  /-- `read` returned `Ok(n)` with `n > 0`; `s` is the chunk after the lossy
  UTF-8 decoding of channel.rs line 168. -/
  | chunk (s : List Char)
  /-- `read` returned `Ok(0)`. -/
  | eofR (idle : Bool)
  /-- `read` returned `Err(_)`. -/
  | errR
  /-- the 100 ms tick won the `select` (outer loop), or the bounded read timed
  out (drain phase). -/
  | tick (idle : Bool)
deriving DecidableEq, Repr

/-- Result of the main read loop.  `out confirmed raw`: the loop broke with
accumulated buffer `raw`; `confirmed` is the source's `marker_found` flag
(true exactly on the drain-phase break, channel.rs line 215).  `timeout`: the
30-second check at the loop top fired (line 139).  `starved`: the event script
ran out while the loop was still running — in the real program the clock keeps
advancing and the 30-second check eventually fires. -/
inductive LoopRes where
  | out (markerConfirmed : Bool) (raw : List Char)
  | timeout
  | starved
deriving DecidableEq, Repr

/-- The drain phase (channel.rs lines 182-207): after first marker detection,
up to 10 further bounded reads; a chunk resets the attempt counter and ends
the drain if it contains the marker; an `Ok(0)` read counts an attempt; a
timeout or error counts an attempt and ends the drain after more than 3.
Returns the extended buffer.  When the script is exhausted the remaining reads
would all time out, so the drain exits with the buffer unchanged. -/
def drainAcc (marker : List Char) : List (Bool × ChanEv) → Nat → List Char → List Char
  | [], _, acc => acc
  | (_, ev) :: rest, attempts, acc =>
    if 10 ≤ attempts then acc
    else match ev with
      | ChanEv.chunk s =>
        let acc' := acc ++ s
        if containsSub s marker then acc'
        else drainAcc marker rest 0 acc'
      | ChanEv.eofR _ => drainAcc marker rest (attempts + 1) acc
      | _ =>
        if 3 < attempts + 1 then acc
        else drainAcc marker rest (attempts + 1) acc

/-- The main read loop of `execute_command` (channel.rs lines 138-240), one
script event per iteration.  The `Bool` paired with each event models
`start.elapsed() > COMMAND_TIMEOUT` sampled at the top of that iteration
(line 139).  State: the accumulated buffer (`stdout`) and `no_data_count`.
`marker_found` is always false at the loop top (it is set only immediately
before a `break`), so it is not part of the state. -/
def execLoop (command marker : List Char) :
    List (Bool × ChanEv) → List Char → Nat → LoopRes
  | [], _, _ => LoopRes.starved
  | (t30, ev) :: rest, stdout, noData =>
    if t30 then LoopRes.timeout
    else match ev with
      | ChanEv.chunk s =>
        let stdout' := stdout ++ s
        if containsSub stdout' marker then
          LoopRes.out true
            (remove_command_echo
              (truncateAtLastMarker (drainAcc marker rest 0 stdout') marker)
              command marker)
        else execLoop command marker rest stdout' 0
      | ChanEv.eofR idle =>
        if 10 < noData + 1 ∧ idle then LoopRes.out false stdout
        else execLoop command marker rest stdout (noData + 1)
      | ChanEv.errR => execLoop command marker rest stdout noData
      | ChanEv.tick idle =>
        if idle ∧ 5 < noData then LoopRes.out false stdout
        else execLoop command marker rest stdout noData

/-- The error message of the timeout bail (channel.rs line 143);
`COMMAND_TIMEOUT` renders as `30s`. -/
def timeoutMsg : List Char := "Command timeout after 30s".toList

/-- `execute_command` from an arbitrary loop state: run the loop, then clean
and trim on a break, or fail with the timeout error.  A starved script is
reported as the timeout error too, since in the real program the 30-second
check eventually fires once the channel yields nothing further of interest. -/
def executeCommandFrom (command marker : List Char)
    (script : List (Bool × ChanEv)) (stdout : List Char) (noData : Nat) :
    Except (List Char) CommandOutput :=
  match execLoop command marker script stdout noData with
  | LoopRes.out _ raw => Except.ok (finishOutput raw)
  | _ => Except.error timeoutMsg

/-- `execute_command` (channel.rs lines 113-256) on a given event script, for
a fixed per-call marker (the source generates it from the clock, line 116). -/
def execute_command (command marker : List Char)
    (script : List (Bool × ChanEv)) : Except (List Char) CommandOutput :=
  executeCommandFrom command marker script [] 0

/-! ## Embedding of `src/mcp/tools.rs` (command tool, lines 136-182) -/

/-- The fixed error message returned when a sudo/password prompt is detected
(tools.rs lines 156-159). -/
def sudoErrMsg : List Char :=
  ("Command requires sudo password. Elicitation support coming soon. " ++
   "Please ensure the user has passwordless sudo configured or handle manually.").toList

/-- The combined rendering built inline by `ssh_run_command_impl`
(tools.rs lines 162-173): stdout, a separating newline if needed, then the
literal label `STDERR:\n` and stderr — the label only when stderr is non-empty
after trimming. -/
def resultText (o : CommandOutput) : List Char :=
  let r : List Char := if (rustTrim o.stdout).isEmpty then [] else o.stdout
  if (rustTrim o.stderr).isEmpty then r
  else
    (if ¬ r.isEmpty ∧ ¬ (r.getLast? = some '\n') then r ++ ['\n'] else r) ++
      "STDERR:\n".toList ++ o.stderr

/-- The post-execution step of `ssh_run_command_impl` (tools.rs lines
149-175): if the combined output contains `"[sudo] password"` or
`"Password:"`, fail with the fixed message; otherwise return the rendering.
The tool parameters carry only `host` and `command` — there is no way to pass
an elevation password. -/
def ssh_run_command_check (o : CommandOutput) : Except (List Char) (List Char) :=
  if containsSub o.combined "[sudo] password".toList ∨
     containsSub o.combined "Password:".toList then
    Except.error sudoErrMsg
  else Except.ok (resultText o)

/-! ## Embedding of `src/ssh/config.rs`

The filesystem is a finite association list `path ↦ content`; `exists` is
membership.  Paths are char lists; `PathBuf::join` of the home directory is
modelled as concatenation with a `/` (home directories carry no trailing
slash). -/

/-- A modelled filesystem: `(path, content)` pairs, first match wins. -/
def Fs := List (List Char × List Char)

/-- Lookup of a path in the modelled filesystem. -/
def fsLookup : Fs → List Char → Option (List Char)
  | [], _ => none
  | (p, c) :: t, q => if p = q then some c else fsLookup t q

/-- `SshHostConfig` (config.rs lines 7-18). -/
structure SshHostConfig where
  host : List Char
  hostname : Option (List Char)
  user : Option (List Char)
  port : Option Nat
  identity_file : Option (List Char)
  proxy_command : Option (List Char)
  proxy_use_fdpass : Bool
  identities_only : Bool
deriving DecidableEq, Repr

/-- The fresh config inserted for a newly seen `Host` pattern
(config.rs lines 131-143). -/
def defaultHostConfig (h : List Char) : SshHostConfig :=
  { host := h, hostname := none, user := none, port := none,
    identity_file := none, proxy_command := none,
    proxy_use_fdpass := false, identities_only := false }

/-- `expand_path` (config.rs lines 20-28): expand a leading `~/` or a bare `~`
against the home directory. -/
def expand_path (path_str home : List Char) : List Char :=
  if "~/".toList.isPrefixOf path_str then home ++ '/' :: path_str.drop 2
  else if path_str = "~".toList then home
  else path_str

/-- `parse_include_directive` (config.rs lines 30-46): for a line starting
with the exact text `"Include "`, the whitespace-separated arguments after it,
tilde-expanded, restricted to paths that exist. -/
def parse_include_directive (fs : Fs) (line home : List Char) : List (List Char) :=
  if ¬ "Include ".toList.isPrefixOf line then []
  else
    ((splitWs (rustTrim (line.drop 8))).map (fun p => expand_path p home)).filter
      (fun p => (fsLookup fs p).isSome)

/-- Rust `str::parse::<u16>`: optional leading `+`, one or more ASCII digits,
value at most 65535. -/
def parseU16 (s : List Char) : Option Nat :=
  let digits := match s with
    | '+' :: t => t
    | t => t
  if digits.isEmpty then none
  else if digits.all Char.isDigit then
    let v := digits.foldl (fun a c => a * 10 + (c.toNat - '0'.toNat)) 0
    if v ≤ 65535 then some v else none
  else none

/-- The sibling-include loop of `read_config_file` (config.rs lines 74-79):
read each include target in order, threading the visited set, concatenating
the contents.  `rd` is the recursive read at the enclosing fuel level;
`none` signals fuel exhaustion and is propagated. -/
def incFold (rd : List (List Char) → List Char → Option (List Char × List (List Char))) :
    List (List Char) → List Char → List (List Char) →
    Option (List Char × List (List Char))
  | [], inc, vis => some (inc, vis)
  | p :: ps, inc, vis =>
    match rd vis p with
    | none => none
    | some (c, vis') => incFold rd ps (inc ++ c) vis'

/-- The line loop of `read_config_file` (config.rs lines 64-85): blank and
`#` lines and ordinary lines are appended (with `\n`) to `result`; an
`Include `-prefixed trimmed line is expanded, its contents appended to
`includes`.  Returns `(includes, result, visited)`. -/
def lineFold (rd : List (List Char) → List Char → Option (List Char × List (List Char)))
    (fs : Fs) (home : List Char) :
    List (List Char) → List Char → List Char → List (List Char) →
    Option (List Char × List Char × List (List Char))
  | [], inc, res, vis => some (inc, res, vis)
  | line :: rest, inc, res, vis =>
    let t := rustTrim line
    if t.isEmpty ∨ "#".toList.isPrefixOf t then
      lineFold rd fs home rest inc (res ++ line ++ ['\n']) vis
    else if "Include ".toList.isPrefixOf t then
      match incFold rd (parse_include_directive fs t home) inc vis with
      | none => none
      | some (inc', vis') => lineFold rd fs home rest inc' res vis'
    else lineFold rd fs home rest inc (res ++ line ++ ['\n']) vis

/-- `read_config_file` (config.rs lines 48-94), fuelled on the nesting depth
of file opens: a visited path yields empty content (lines 49-51); the path is
marked visited before the existence check (lines 52-56); otherwise the lines
are processed and the expanded include contents are prepended to the file's
own retained lines (lines 87-93).  `none` means the fuel bound was exhausted;
the termination theorem shows one more than the number of distinct unvisited
paths always suffices. -/
def read_config_file (fs : Fs) (home : List Char) :
    Nat → List (List Char) → List Char → Option (List Char × List (List Char))
  | 0, _, _ => none
  | fuel + 1, visited, path =>
    if path ∈ visited then some ([], visited)
    else
      let visited' := path :: visited
      match fsLookup fs path with
      | none => some ([], visited')
      | some content =>
        match lineFold (read_config_file fs home fuel) fs home
            (rustLines content) [] [] visited' with
        | none => none
        | some (inc, res, vis) => some (inc ++ res, vis)

/-- The number of distinct filesystem paths not yet visited — the measure
bounding the include recursion. -/
def unvisitedCount (fs : Fs) (visited : List (List Char)) : Nat :=
  (((fs.map Prod.fst).dedup).filter (fun p => ¬ p ∈ visited)).length

/-- `applyDirective`: the directive chain of `parse_ssh_config`
(config.rs lines 152-183).  `line` is the trimmed line; keyword matching is on
the lowercased line, value slicing on the original.  `none` models the one
abort in the chain: the ProxyCommand branch slices `&cmd[1..cmd.len()-1]`
(config.rs line 172), which panics when the quote-stripping condition holds on
a value of length 1 (a single quote character, e.g. the line `ProxyCommand "`:
it both starts and ends with the quote, and the slice bounds are then `1..0`).
Every other branch, and every longer quoted value, returns `some`. -/
def applyDirective (home : List Char) (cfg : SshHostConfig) (line : List Char) :
    Option SshHostConfig :=
  let lw := line.map Char.toLower
  if "hostname ".toList.isPrefixOf lw then
    some { cfg with hostname := some (rustTrim (line.drop 9)) }
  else if "user ".toList.isPrefixOf lw then
    some { cfg with user := some (rustTrim (line.drop 5)) }
  else if "port ".toList.isPrefixOf lw then
    match parseU16 (rustTrim (line.drop 5)) with
    | some p => some { cfg with port := some p }
    | none => some cfg
  else if "identityfile ".toList.isPrefixOf lw then
    some { cfg with identity_file := some (expand_path (rustTrim (line.drop 13)) home) }
  else if "proxycommand ".toList.isPrefixOf lw then
    let cmd := rustTrim (line.drop 13)
    if (cmd.head? = some '"' ∧ cmd.getLast? = some '"') ∨
       (cmd.head? = some '\'' ∧ cmd.getLast? = some '\'') then
      if cmd.length < 2 then none
      else some { cfg with proxy_command := some ((cmd.drop 1).dropLast) }
    else some { cfg with proxy_command := some cmd }
  else if "proxyusefdpass ".toList.isPrefixOf lw then
    let v := (rustTrim (line.drop 15)).map Char.toLower
    some { cfg with proxy_use_fdpass :=
        v = "yes".toList ∨ v = "true".toList ∨ v = "1".toList }
  else if "identitiesonly ".toList.isPrefixOf lw then
    let v := (rustTrim (line.drop 15)).map Char.toLower
    some { cfg with identities_only :=
        v = "yes".toList ∨ v = "true".toList ∨ v = "1".toList }
  else some cfg

/-- First-match lookup in the parsed host map (Rust `HashMap::get` /
`contains_key` on exact keys; the map is modelled as an association list in
insertion order). -/
def assocFind : List (List Char × SshHostConfig) → List Char → Option SshHostConfig
  | [], _ => none
  | (k, v) :: t, q => if k = q then some v else assocFind t q

/-- Replace the value stored under a key, if present (Rust `HashMap::get_mut`
followed by assignment through the mutable reference). -/
def assocReplace (m : List (List Char × SshHostConfig)) (k : List Char)
    (w : SshHostConfig) : List (List Char × SshHostConfig) :=
  match m with
  | [] => []
  | (k', v) :: t => if k' = k then (k', w) :: t else (k', v) :: assocReplace t k w

/-- Parser state of the main loop of `parse_ssh_config`: the current `Host`
block and the host map. -/
structure ParseSt where
  cur : Option (List Char)
  hosts : List (List Char × SshHostConfig)
deriving Repr

/-- One iteration of the main parse loop of `parse_ssh_config`
(config.rs lines 115-185): trim; skip blanks, `#` comments and lines starting
with the exact text `"Include "`; a case-insensitive `host ` line opens a
block (inserting a fresh config for an unseen pattern); any other line is fed
to the directive chain of the current block (a line outside any block, or for
a key the map lost, is silently skipped, mirroring the `if let` guard at
config.rs lines 149-151).  `none` propagates the directive chain's panic. -/
def parse_step (home : List Char) (st : ParseSt) (rawLine : List Char) :
    Option ParseSt :=
  let line := rustTrim rawLine
  if line.isEmpty ∨ "#".toList.isPrefixOf line then some st
  else if "Include ".toList.isPrefixOf line then some st
  else if "host ".toList.isPrefixOf (line.map Char.toLower) then
    let h := rustTrim (line.drop 5)
    if h.isEmpty then some st
    else
      some { cur := some h,
             hosts := if (assocFind st.hosts h).isSome then st.hosts
                      else st.hosts ++ [(h, defaultHostConfig h)] }
  else
    match st.cur with
    | none => some st
    | some h =>
      match assocFind st.hosts h with
      | none => some st
      | some c =>
        match applyDirective home c line with
        | none => none
        | some c' => some { st with hosts := assocReplace st.hosts h c' }

/-- Wildcard translation of a `Host` pattern (config.rs lines 200-208):
`*` becomes `.*`; under Rust's regex semantics a literal `.` in the pattern
then matches any single non-newline character.  Other regex metacharacters in
patterns are not modelled (no claim depends on them).  Fuelled; the wrapper
supplies enough fuel for full backtracking depth. -/
def globMatchAux : Nat → List Char → List Char → Bool
  | 0, _, _ => false
  | _ + 1, [], t => t.isEmpty
  | fuel + 1, '*' :: ps, t =>
    globMatchAux fuel ps t ||
      (match t with
       | [] => false
       | c :: t' => ¬ c = '\n' && globMatchAux fuel ('*' :: ps) t')
  | fuel + 1, c :: ps, t =>
    match t with
    | [] => false
    | d :: t' => (if c = '.' then ¬ d = '\n' else c = d) && globMatchAux fuel ps t'

/-- Anchored match of a translated `Host` pattern against a host alias. -/
def globMatch (pattern hostAlias : List Char) : Bool :=
  globMatchAux (pattern.length + hostAlias.length + 1) pattern hostAlias

/-- The wildcard fallback pass of `parse_ssh_config` (config.rs lines
200-209): first pattern containing `*` whose translation matches the alias.
(Rust iterates a `HashMap` in unspecified order; insertion order is used
here.) -/
def wildcardLookup : List (List Char × SshHostConfig) → List Char → Option SshHostConfig
  | [], _ => none
  | (p, c) :: t, hostAlias =>
    if '*' ∈ p ∧ globMatch p hostAlias then some c else wildcardLookup t hostAlias

/-- `parse_ssh_config` (config.rs lines 96-212) over the modelled filesystem
and HOME: fail (`none`) when the config file is missing; otherwise expand
includes, run the parse loop over the lines, and resolve by exact lookup then
wildcard fallback.  The include fuel is the distinct-path bound established by
the termination theorem.  A `none` from `parse_step` (the ProxyCommand slice
panic, which aborts the Rust process) is propagated: no result is produced. -/
def parse_ssh_config (fs : Fs) (home hostAlias : List Char) : Option SshHostConfig :=
  let configPath := home ++ "/.ssh/config".toList
  if (fsLookup fs configPath).isNone then none
  else
    match read_config_file fs home (unvisitedCount fs [] + 1) [] configPath with
    | none => none
    | some (content, _) =>
      match (rustLines content).foldl
          (fun acc line => acc.bind (fun st => parse_step home st line))
          (some (ParseSt.mk none [])) with
      | none => none
      | some st =>
        match assocFind st.hosts hostAlias with
        | some c => some c
        | none => wildcardLookup st.hosts hostAlias

/-! ## Definitions written from the specification's words (for comparison)

These are the spec side of refinement-style claims; they are deliberately
written from the specification text, not from the source. -/

/-- Spec, §4.3 completion rule 1/3: the positions of occurrences of the marker
that stand on their own line — preceded by `\n` or at position 0. -/
def specOwnLinePositions (output marker : List Char) : List Nat :=
  (List.range (output.length + 1)).filter
    (fun p => occursAt output marker p ∧ (p = 0 ∨ output.get? (p - 1) = some '\n'))

/-- Spec, §4.3 completion rule 3: the position of the last own-line marker
occurrence, the spec's truncation point. -/
def specOwnLineLastMarker (output marker : List Char) : Option Nat :=
  (specOwnLinePositions output marker).getLast?

/-- A CSI sequence as the claim describes it (ESC `[`, digits/semicolons, a
terminator letter) occurs somewhere in the text. -/
def hasCsiSeq (l : List Char) : Bool :=
  (List.range l.length).any (fun i => (csiMatchHead (l.drop i)).isSome)

/-- An OSC sequence (ESC `]` up to BEL) occurs somewhere in the text. -/
def hasOscSeq (l : List Char) : Bool :=
  (List.range l.length).any (fun i => (oscMatchHead (l.drop i)).isSome)

/-- A DCS/APC/PM sequence (ESC `P`/`^`/`_` up to ESC `\`) occurs somewhere in
the text. -/
def hasDcsSeq (l : List Char) : Bool :=
  (List.range l.length).any (fun i => (dcsMatchHead (l.drop i)).isSome)

/-- Every chunk of the script is free of the escape character. -/
def escFreeScript (script : List (Bool × ChanEv)) : Bool :=
  script.all (fun e => match e.2 with
    | ChanEv.chunk s => ¬ escChar ∈ s
    | _ => true)

/-! ## Supporting lemmas -/

lemma occ_iff (l pat : List Char) (i : Nat) :
    occursAt l pat i = true ↔ pat <+: l.drop i := by
  simp [occursAt]

lemma listFind_none {l pat : List Char} (h : listFind l pat = none) :
    ∀ i, ¬ pat <+: l.drop i := by
  induction l with
  | nil =>
    intro i
    simp only [listFind] at h
    by_cases hp : pat.isPrefixOf [] = true
    · simp [hp] at h
    · simpa using hp
  | cons c t ih =>
    intro i
    simp only [listFind] at h
    by_cases hp : pat.isPrefixOf (c :: t) = true
    · simp [hp] at h
    · have hrest : listFind t pat = none := by
        rw [if_neg hp] at h
        cases hf : listFind t pat <;> simp [hf] at h ⊢
      cases i with
      | zero => simpa using hp
      | succ j => simpa using ih hrest j

lemma listFind_some_occurs {l pat : List Char} :
    ∀ {p}, listFind l pat = some p → pat <+: l.drop p := by
  induction l with
  | nil =>
    intro p h
    simp only [listFind] at h
    by_cases hp : pat.isPrefixOf [] = true
    · rw [if_pos hp] at h
      injection h with h
      subst h
      simpa using hp
    · simp [hp] at h
  | cons c t ih =>
    intro p h
    simp only [listFind] at h
    by_cases hp : pat.isPrefixOf (c :: t) = true
    · rw [if_pos hp] at h
      injection h with h
      subst h
      simpa using hp
    · rw [if_neg hp] at h
      cases hf : listFind t pat with
      | none => simp [hf] at h
      | some q =>
        rw [hf] at h
        injection (show some (q + 1) = some p from h) with h
        subst h
        simpa using ih hf

lemma listFind_isSome_of_occurs {l pat : List Char} :
    ∀ {i}, pat <+: l.drop i → (listFind l pat).isSome = true := by
  induction l with
  | nil =>
    intro i h
    simp only [List.drop_nil] at h
    simp only [listFind]
    rw [if_pos (by simpa using h)]
    rfl
  | cons c t ih =>
    intro i h
    simp only [listFind]
    by_cases hp : pat.isPrefixOf (c :: t) = true
    · simp [hp]
    · rw [if_neg hp]
      cases i with
      | zero => exact absurd (by simpa using h) hp
      | succ j =>
        have := ih (by simpa using h)
        cases hf : listFind t pat with
        | none => simp [hf] at this
        | some q => simp [hf]

lemma occursAt_length {l pat : List Char} {p : Nat} (hp : pat ≠ [])
    (h : pat <+: l.drop p) : p + pat.length ≤ l.length := by
  have hlen : pat.length ≤ (l.drop p).length := h.length_le
  have hd : (l.drop p).length = l.length - p := List.length_drop p l
  have h1 : 1 ≤ pat.length := by
    cases pat with
    | nil => exact absurd rfl hp
    | cons _ _ => simp
  omega

lemma occursAt_drop_iff (l pat : List Char) (a i : Nat) :
    pat <+: (l.drop a).drop i ↔ pat <+: l.drop (a + i) := by
  rw [List.drop_drop]

lemma occursAt_append_right {l a b : List Char} {i : Nat}
    (h : (a ++ b) <+: l.drop i) : b <+: l.drop (i + a.length) := by
  obtain ⟨t, ht⟩ := h
  have : l.drop (i + a.length) = (l.drop i).drop a.length := by
    rw [List.drop_drop, Nat.add_comm]
  rw [this, ← ht, List.append_assoc, List.drop_left]
  exact ⟨t, rfl⟩

lemma containsSub_of_occurs {l pat : List Char} {i : Nat}
    (h : pat <+: l.drop i) : containsSub l pat = true :=
  listFind_isSome_of_occurs h

lemma not_occurs_of_containsSub_false {l pat : List Char}
    (h : containsSub l pat = false) : ∀ i, ¬ pat <+: l.drop i := by
  intro i hc
  rw [containsSub_of_occurs hc] at h
  cases h

lemma listFind_some_le {l pat : List Char} :
    ∀ {p}, listFind l pat = some p → p ≤ l.length := by
  induction l with
  | nil =>
    intro p h
    simp only [listFind] at h
    by_cases hp : pat.isPrefixOf [] = true
    · rw [if_pos hp] at h; injection h with h; omega
    · simp [hp] at h
  | cons c t ih =>
    intro p h
    simp only [listFind] at h
    by_cases hp : pat.isPrefixOf (c :: t) = true
    · rw [if_pos hp] at h; injection h with h; omega
    · rw [if_neg hp] at h
      cases hf : listFind t pat with
      | none => simp [hf] at h
      | some q =>
        rw [hf] at h
        injection (show some (q + 1) = some p from h) with h
        have := ih hf
        have hlc : (c :: t).length = t.length + 1 := rfl
        omega

lemma containsSub_append_left {a b pat : List Char}
    (h : containsSub a pat = true) : containsSub (a ++ b) pat = true := by
  unfold containsSub at h
  cases hf : listFind a pat with
  | none => rw [hf] at h; cases h
  | some p =>
    have hocc := listFind_some_occurs hf
    obtain ⟨t, ht⟩ := hocc
    refine containsSub_of_occurs (i := p) ?_
    refine ⟨t ++ b, ?_⟩
    have hd : (a ++ b).drop p = a.drop p ++ b :=
      List.drop_append_of_le_length (listFind_some_le hf)
    rw [hd, ← ht, List.append_assoc]

lemma findLastMarkerAux_char (marker : List Char) (hm : marker ≠ []) :
    ∀ fuel s, s.length < fuel →
      ((∀ p, findLastMarkerAux marker fuel s = some p →
          (marker <+: s.drop p ∧
            ∀ q, p + marker.length ≤ q → ¬ marker <+: s.drop q)) ∧
        (findLastMarkerAux marker fuel s = none → ∀ q, ¬ marker <+: s.drop q)) := by
  intro fuel
  induction fuel with
  | zero => intro s hs; omega
  | succ fuel ih =>
    intro s hs
    constructor
    · intro p hp
      simp only [findLastMarkerAux] at hp
      cases hf : listFind s marker with
      | none =>
        simp only [hf] at hp
        exact Option.noConfusion hp
      | some pos =>
        simp only [hf] at hp
        have hofs : marker <+: s.drop pos := listFind_some_occurs hf
        have hbound : pos + marker.length ≤ s.length := occursAt_length hm hofs
        have hm1 : 1 ≤ marker.length := by
          cases marker with
          | nil => exact absurd rfl hm
          | cons _ _ => simp
        have hlen' : (s.drop (pos + marker.length)).length < fuel := by
          have := List.length_drop (pos + marker.length) s
          omega
        have ihs := ih (s.drop (pos + marker.length)) hlen'
        cases hrec : findLastMarkerAux marker fuel (s.drop (pos + marker.length)) with
        | none =>
          simp only [hrec] at hp
          injection hp with hp
          rw [← hp]
          refine ⟨hofs, ?_⟩
          intro q hq hocc
          obtain ⟨i, hi⟩ := Nat.le.dest hq
          have hocc' : marker <+: (s.drop (pos + marker.length)).drop i := by
            rw [occursAt_drop_iff, hi]
            exact hocc
          exact ihs.2 hrec i hocc'
        | some p' =>
          simp only [hrec] at hp
          injection hp with hp
          rw [← hp]
          have hrec' := (ihs.1 p' hrec)
          constructor
          · have := hrec'.1
            rw [occursAt_drop_iff] at this
            exact this
          · intro q hq hocc
            obtain ⟨i, hi⟩ := Nat.le.dest
              (show pos + marker.length ≤ q by omega)
            have hi2 : p' + marker.length ≤ i := by omega
            have hocc' : marker <+: (s.drop (pos + marker.length)).drop i := by
              rw [occursAt_drop_iff, hi]
              exact hocc
            exact hrec'.2 i hi2 hocc'
    · intro hnone q
      simp only [findLastMarkerAux] at hnone
      cases hf : listFind s marker with
      | none => exact listFind_none hf q
      | some pos =>
        simp only [hf] at hnone
        cases hrec : findLastMarkerAux marker fuel (s.drop (pos + marker.length)) <;>
          simp only [hrec] at hnone <;> exact Option.noConfusion hnone

lemma find_last_some {output marker : List Char} {p : Nat} (hm : marker ≠ [])
    (h : find_last_marker_position output marker = some p) :
    marker <+: output.drop p ∧
      ∀ q, p + marker.length ≤ q → ¬ marker <+: output.drop q :=
  (findLastMarkerAux_char marker hm (output.length + 1) output (by omega)).1 p h

lemma find_last_none {output marker : List Char} (hm : marker ≠ [])
    (h : find_last_marker_position output marker = none) :
    ∀ q, ¬ marker <+: output.drop q :=
  (findLastMarkerAux_char marker hm (output.length + 1) output (by omega)).2 h

lemma excise_length {out full : List Char} {pos : Nat}
    (h : pos + full.length ≤ out.length) :
    (out.take pos ++ out.drop (pos + full.length)).length = out.length - full.length := by
  simp [List.length_take, List.length_drop]
  omega

lemma removeEchoAux_clean {full : List Char} (hf : full ≠ []) :
    ∀ fuel out, out.length < fuel →
      listFind (removeEchoAux full fuel out) full = none := by
  intro fuel
  induction fuel with
  | zero => intro out h; omega
  | succ fuel ih =>
    intro out h
    simp only [removeEchoAux]
    cases hfind : listFind out full with
    | none => exact hfind
    | some pos =>
      have hocc := listFind_some_occurs hfind
      have hbound := occursAt_length hf hocc
      have hm1 : 1 ≤ full.length := by
        cases full with
        | nil => exact absurd rfl hf
        | cons _ _ => simp
      refine ih _ ?_
      rw [excise_length hbound]
      omega

lemma full_command_echo_ne_nil (command marker : List Char) :
    full_command_echo command marker ≠ [] := by
  unfold full_command_echo
  intro h
  have : (command ++ "; echo ".toList ++ marker).length = 0 := by rw [h]; rfl
  simp [List.length_append] at this

lemma remove_command_echo_clean (output command marker : List Char) :
    listFind (remove_command_echo output command marker)
      (full_command_echo command marker) = none :=
  removeEchoAux_clean (full_command_echo_ne_nil command marker)
    (output.length + 1) output (by omega)

lemma removeEchoAux_mem {full : List Char} {x : Char} :
    ∀ {fuel out}, x ∈ removeEchoAux full fuel out → x ∈ out := by
  intro fuel
  induction fuel with
  | zero => intro out h; exact h
  | succ fuel ih =>
    intro out h
    simp only [removeEchoAux] at h
    cases hfind : listFind out full with
    | none => rw [hfind] at h; exact h
    | some pos =>
      rw [hfind] at h
      have := ih h
      rcases List.mem_append.1 this with h' | h'
      · exact List.mem_of_mem_take h'
      · exact List.mem_of_mem_drop h'

lemma remove_command_echo_mem {output command marker : List Char} {x : Char}
    (h : x ∈ remove_command_echo output command marker) : x ∈ output :=
  removeEchoAux_mem h

lemma head_dropWhile_not {p : Char → Bool} :
    ∀ {l : List Char} {c}, (l.dropWhile p).head? = some c → p c = false := by
  intro l
  induction l with
  | nil => intro c h; simp [List.dropWhile] at h
  | cons a t ih =>
    intro c h
    by_cases hp : p a = true
    · rw [List.dropWhile_cons_of_pos hp] at h
      exact ih h
    · rw [List.dropWhile_cons_of_neg hp] at h
      simp at h
      subst h
      simpa using hp

lemma rustTrimEnd_no_trailing {l : List Char} {c : Char}
    (h : (rustTrimEnd l).getLast? = some c) : rustIsWhitespace c = false := by
  unfold rustTrimEnd at h
  rw [List.getLast?_reverse] at h
  exact head_dropWhile_not h

lemma dropWhile_decomp (p : Char → Bool) :
    ∀ l : List Char, ∃ u, u ++ l.dropWhile p = l := by
  intro l
  induction l with
  | nil => exact ⟨[], rfl⟩
  | cons a t ih =>
    by_cases hp : p a = true
    · obtain ⟨u, hu⟩ := ih
      exact ⟨a :: u, by rw [List.dropWhile_cons_of_pos hp]; simpa using hu⟩
    · exact ⟨[], by rw [List.dropWhile_cons_of_neg hp]; rfl⟩

lemma rustTrimEnd_decomp (l : List Char) : ∃ t, rustTrimEnd l ++ t = l := by
  obtain ⟨u, hu⟩ := dropWhile_decomp rustIsWhitespace l.reverse
  refine ⟨u.reverse, ?_⟩
  have h2 : rustTrimEnd l = (List.dropWhile rustIsWhitespace l.reverse).reverse := rfl
  rw [h2, ← List.reverse_append, hu, List.reverse_reverse]

lemma rustTrimEnd_mem {l : List Char} {x : Char} (h : x ∈ rustTrimEnd l) : x ∈ l := by
  obtain ⟨t, ht⟩ := rustTrimEnd_decomp l
  rw [← ht]
  exact List.mem_append.2 (Or.inl h)

lemma containsSub_of_take {l pat : List Char} {k : Nat}
    (h : containsSub (l.take k) pat = true) : containsSub l pat = true := by
  unfold containsSub at h
  cases hf : listFind (l.take k) pat with
  | none => rw [hf] at h; cases h
  | some i =>
    have hocc := listFind_some_occurs hf
    have hdt : (l.take k).drop i = (l.drop i).take (k - i) := List.drop_take k i l
    rw [hdt] at hocc
    have : pat <+: l.drop i :=
      hocc.trans ⟨(l.drop i).drop (k - i), List.take_append_drop _ _⟩
    exact containsSub_of_occurs this

lemma containsSub_of_decomp {l pat a t : List Char}
    (hd : a ++ t = l) (h : containsSub a pat = true) : containsSub l pat = true := by
  rw [← hd]
  exact containsSub_append_left h

lemma csiMatchHead_eq_none : ∀ {s : List Char},
    s.head? ≠ some escChar → csiMatchHead s = none := by
  intro s h
  rw [csiMatchHead.eq_def]
  split
  · simp [escChar] at h
  · rfl

lemma oscMatchHead_eq_none : ∀ {s : List Char},
    s.head? ≠ some escChar → oscMatchHead s = none := by
  intro s h
  rw [oscMatchHead.eq_def]
  split
  · simp [escChar] at h
  · rfl

lemma dcsMatchHead_eq_none : ∀ {s : List Char},
    s.head? ≠ some escChar → dcsMatchHead s = none := by
  intro s h
  rw [dcsMatchHead.eq_def]
  split
  · simp [escChar] at h
  · rfl

lemma replAllAux_id {m : List Char → Option (List Char)}
    (hm : ∀ s : List Char, s.head? ≠ some escChar → m s = none) :
    ∀ fuel (l : List Char), escChar ∉ l → replAllAux m fuel l = l := by
  intro fuel
  induction fuel with
  | zero => intro l _; cases l <;> rfl
  | succ fuel ih =>
    intro l hl
    cases l with
    | nil => rfl
    | cons c t =>
      have hc : c ≠ escChar := fun h => hl (h ▸ List.mem_cons_self c t)
      have : m (c :: t) = none := hm _ (by simp [hc])
      simp only [replAllAux, this]
      rw [ih t (fun h => hl (List.mem_cons_of_mem c h))]

lemma cleanPass_id {m : List Char → Option (List Char)}
    (hm : ∀ s : List Char, s.head? ≠ some escChar → m s = none)
    {l : List Char} (hl : escChar ∉ l) : cleanPass m l = l :=
  replAllAux_id hm (l.length + 1) l hl

lemma clean_ansi_id {l : List Char} (hl : escChar ∉ l) :
    clean_ansi_sequences l = l := by
  unfold clean_ansi_sequences
  rw [cleanPass_id (fun _ h => csiMatchHead_eq_none h) hl,
    cleanPass_id (fun _ h => oscMatchHead_eq_none h) hl,
    cleanPass_id (fun _ h => dcsMatchHead_eq_none h) hl]

lemma head?_mem {l : List Char} {c : Char} (h : l.head? = some c) : c ∈ l := by
  cases l with
  | nil => cases h
  | cons a t =>
    simp at h
    subst h
    exact List.mem_cons_self a t

lemma hasSeq_esc {l : List Char}
    {m : List Char → Option (List Char)}
    (hm : ∀ s : List Char, s.head? ≠ some escChar → m s = none)
    (h : (List.range l.length).any (fun i => (m (l.drop i)).isSome) = true) :
    escChar ∈ l := by
  rw [List.any_eq_true] at h
  obtain ⟨i, _, hi⟩ := h
  by_cases hh : (l.drop i).head? = some escChar
  · exact List.mem_of_mem_drop (head?_mem hh)
  · rw [hm _ hh] at hi
    cases hi

lemma hasCsiSeq_esc {l : List Char} (h : hasCsiSeq l = true) : escChar ∈ l :=
  hasSeq_esc (fun _ hh => csiMatchHead_eq_none hh) h

lemma hasOscSeq_esc {l : List Char} (h : hasOscSeq l = true) : escChar ∈ l :=
  hasSeq_esc (fun _ hh => oscMatchHead_eq_none hh) h

lemma hasDcsSeq_esc {l : List Char} (h : hasDcsSeq l = true) : escChar ∈ l :=
  hasSeq_esc (fun _ hh => dcsMatchHead_eq_none hh) h

lemma escFreeScript_cons_tail {e : Bool × ChanEv} {rest : List (Bool × ChanEv)}
    (h : escFreeScript (e :: rest) = true) : escFreeScript rest = true := by
  simp only [escFreeScript, List.all_cons, Bool.and_eq_true] at h ⊢
  exact h.2

lemma escFreeScript_cons_chunk {b : Bool} {s : List Char}
    {rest : List (Bool × ChanEv)}
    (h : escFreeScript ((b, ChanEv.chunk s) :: rest) = true) : escChar ∉ s := by
  simp only [escFreeScript, List.all_cons, Bool.and_eq_true] at h
  have h1 := h.1
  simpa using h1

lemma truncateAtLastMarker_mem {output marker : List Char} {x : Char}
    (h : x ∈ truncateAtLastMarker output marker) : x ∈ output := by
  unfold truncateAtLastMarker at h
  cases hf : find_last_marker_position output marker with
  | none => rw [hf] at h; exact h
  | some pos => rw [hf] at h; exact List.mem_of_mem_take h

lemma drainAcc_esc {marker : List Char} {x : Char} :
    ∀ {evs attempts acc}, escFreeScript evs = true → x ∉ acc → x = escChar →
      x ∉ drainAcc marker evs attempts acc := by
  intro evs
  induction evs with
  | nil => intro attempts acc _ hacc _; exact hacc
  | cons e rest ih =>
    intro attempts acc hfree hacc hx
    obtain ⟨b, ev⟩ := e
    have hfree' : escFreeScript rest = true := escFreeScript_cons_tail hfree
    simp only [drainAcc]
    by_cases h10 : 10 ≤ attempts
    · rw [if_pos h10]; exact hacc
    · rw [if_neg h10]
      cases ev with
      | chunk s =>
        have hsfree : escChar ∉ s := escFreeScript_cons_chunk hfree
        have hacc' : x ∉ acc ++ s := by
          intro hmem
          rcases List.mem_append.1 hmem with h' | h'
          · exact hacc h'
          · exact hsfree (hx ▸ h')
        by_cases hc : containsSub s marker = true
        · simp only [hc, if_true]
          exact hacc'
        · simp only [hc, if_false]
          exact ih hfree' hacc' hx
      | eofR idle => exact ih hfree' hacc hx
      | errR =>
        by_cases h3 : 3 < attempts + 1
        · simp only [if_pos h3]; exact hacc
        · simp only [if_neg h3]; exact ih hfree' hacc hx
      | tick idle =>
        by_cases h3 : 3 < attempts + 1
        · simp only [if_pos h3]; exact hacc
        · simp only [if_neg h3]; exact ih hfree' hacc hx

lemma execLoop_out_true {command marker : List Char} :
    ∀ {evs stdout noData raw},
      execLoop command marker evs stdout noData = LoopRes.out true raw →
      ∃ x, raw = remove_command_echo x command marker := by
  intro evs
  induction evs with
  | nil => intro s n raw h; cases h
  | cons e rest ih =>
    intro s n raw h
    obtain ⟨t30, ev⟩ := e
    simp only [execLoop] at h
    by_cases ht : t30 = true
    · rw [if_pos ht] at h; cases h
    · rw [if_neg ht] at h
      cases ev with
      | chunk c =>
        by_cases hc : containsSub (s ++ c) marker = true
        · simp only [hc, if_true] at h
          injection h with _ hraw
          exact ⟨_, hraw.symm⟩
        · simp only [hc, if_false] at h
          exact ih h
      | eofR idle =>
        by_cases hb : 10 < n + 1 ∧ idle = true
        · simp only [if_pos hb] at h; injection h with hconf _; cases hconf
        · simp only [if_neg hb] at h; exact ih h
      | errR => exact ih h
      | tick idle =>
        by_cases hb : idle = true ∧ 5 < n
        · simp only [if_pos hb] at h; injection h with hconf _; cases hconf
        · simp only [if_neg hb] at h; exact ih h

lemma execLoop_out_false {command marker : List Char} :
    ∀ {evs stdout noData raw},
      containsSub stdout marker = false →
      execLoop command marker evs stdout noData = LoopRes.out false raw →
      containsSub raw marker = false := by
  intro evs
  induction evs with
  | nil => intro s n raw _ h; cases h
  | cons e rest ih =>
    intro s n raw hs h
    obtain ⟨t30, ev⟩ := e
    simp only [execLoop] at h
    by_cases ht : t30 = true
    · rw [if_pos ht] at h; cases h
    · rw [if_neg ht] at h
      cases ev with
      | chunk c =>
        by_cases hc : containsSub (s ++ c) marker = true
        · simp only [hc, if_true] at h
          injection h with hconf _
          cases hconf
        · simp only [hc, if_false] at h
          exact ih (by cases hcc : containsSub (s ++ c) marker with
            | true => exact absurd hcc hc
            | false => rfl) h
      | eofR idle =>
        by_cases hb : 10 < n + 1 ∧ idle = true
        · simp only [if_pos hb] at h
          injection h with _ hraw
          rw [← hraw]
          exact hs
        · simp only [if_neg hb] at h; exact ih hs h
      | errR => exact ih hs h
      | tick idle =>
        by_cases hb : idle = true ∧ 5 < n
        · simp only [if_pos hb] at h
          injection h with _ hraw
          rw [← hraw]
          exact hs
        · simp only [if_neg hb] at h; exact ih hs h

lemma execLoop_out_esc {command marker : List Char} :
    ∀ {evs stdout noData conf raw},
      escFreeScript evs = true → escChar ∉ stdout →
      execLoop command marker evs stdout noData = LoopRes.out conf raw →
      escChar ∉ raw := by
  intro evs
  induction evs with
  | nil => intro s n conf raw _ _ h; cases h
  | cons e rest ih =>
    intro s n conf raw hfree hs h
    obtain ⟨t30, ev⟩ := e
    have hfree' : escFreeScript rest = true := escFreeScript_cons_tail hfree
    simp only [execLoop] at h
    by_cases ht : t30 = true
    · rw [if_pos ht] at h; cases h
    · rw [if_neg ht] at h
      cases ev with
      | chunk c =>
        have hcfree : escChar ∉ c := escFreeScript_cons_chunk hfree
        have hsc : escChar ∉ s ++ c := by
          intro hmem
          rcases List.mem_append.1 hmem with h' | h'
          · exact hs h'
          · exact hcfree h'
        by_cases hc : containsSub (s ++ c) marker = true
        · simp only [hc, if_true] at h
          injection h with _ hraw
          rw [← hraw]
          intro hmem
          have h1 := remove_command_echo_mem hmem
          have h2 := truncateAtLastMarker_mem h1
          exact drainAcc_esc hfree' hsc rfl h2
        · simp only [hc, if_false] at h
          exact ih hfree' hsc h
      | eofR idle =>
        by_cases hb : 10 < n + 1 ∧ idle = true
        · simp only [if_pos hb] at h
          injection h with _ hraw
          rw [← hraw]
          exact hs
        · simp only [if_neg hb] at h; exact ih hfree' hs h
      | errR => exact ih hfree' hs h
      | tick idle =>
        by_cases hb : idle = true ∧ 5 < n
        · simp only [if_pos hb] at h
          injection h with _ hraw
          rw [← hraw]
          exact hs
        · simp only [if_neg hb] at h; exact ih hfree' hs h

lemma execLoop_starved_extend {command marker : List Char} (ev : ChanEv)
    (tail : List (Bool × ChanEv)) :
    ∀ {evs₁ stdout noData},
      execLoop command marker evs₁ stdout noData = LoopRes.starved →
      execLoop command marker (evs₁ ++ (true, ev) :: tail) stdout noData =
        LoopRes.timeout := by
  intro evs₁
  induction evs₁ with
  | nil =>
    intro s n _
    simp [execLoop]
  | cons e rest ih =>
    intro s n h
    obtain ⟨t30, e'⟩ := e
    simp only [execLoop] at h
    simp only [List.cons_append, execLoop]
    by_cases ht : t30 = true
    · rw [if_pos ht] at h; cases h
    · rw [if_neg ht] at h
      rw [if_neg ht]
      cases e' with
      | chunk c =>
        by_cases hc : containsSub (s ++ c) marker = true
        · simp only [hc, if_true] at h; cases h
        · simp only [hc, if_false] at h ⊢
          exact ih h
      | eofR idle =>
        by_cases hb : 10 < n + 1 ∧ idle = true
        · simp only [if_pos hb] at h; cases h
        · simp only [if_neg hb] at h
          simp only [if_neg hb]
          exact ih h
      | errR => exact ih h
      | tick idle =>
        by_cases hb : idle = true ∧ 5 < n
        · simp only [if_pos hb] at h; cases h
        · simp only [if_neg hb] at h
          simp only [if_neg hb]
          exact ih h

/-! ### Lemmas for termination of the include expansion (C9) -/

lemma flt_mono (p q : List Char → Bool)
    (himp : ∀ x, q x = true → p x = true) :
    ∀ l : List (List Char), (l.filter q).length ≤ (l.filter p).length := by
  intro l
  induction l with
  | nil => simp
  | cons a t ih =>
    by_cases hq : q a = true
    · have hp := himp a hq
      simp [List.filter_cons, hq, hp]
      omega
    · have hq' : q a = false := by
        cases hqa : q a
        · rfl
        · exact absurd hqa hq
      by_cases hp : p a = true
      · simp [List.filter_cons, hq', hp]
        omega
      · have hp' : p a = false := by
          cases hpa : p a
          · rfl
          · exact absurd hpa hp
        simp [List.filter_cons, hq', hp']
        omega

lemma flt_lt (p q : List Char → Bool)
    (himp : ∀ x, q x = true → p x = true)
    (a : List Char) (hpa : p a = true) (hqa : q a = false) :
    ∀ l : List (List Char), a ∈ l →
      (l.filter q).length < (l.filter p).length := by
  intro l
  induction l with
  | nil => intro h; cases h
  | cons b t ih =>
    intro hmem
    rcases List.mem_cons.1 hmem with hb | hbt
    · subst hb
      have hm := flt_mono p q himp t
      simp [List.filter_cons, hpa, hqa]
      omega
    · by_cases hqb : q b = true
      · have hpb := himp b hqb
        have := ih hbt
        simp [List.filter_cons, hqb, hpb]
        omega
      · have hqb' : q b = false := by
          cases hx : q b
          · rfl
          · exact absurd hx hqb
        have := ih hbt
        by_cases hpb : p b = true
        · simp [List.filter_cons, hqb', hpb]
          omega
        · have hpb' : p b = false := by
            cases hx : p b
            · rfl
            · exact absurd hx hpb
          simp [List.filter_cons, hqb', hpb']
          omega

lemma unvisited_mono (fs : Fs) (v₁ v₂ : List (List Char))
    (hsub : ∀ x, x ∈ v₁ → x ∈ v₂) :
    unvisitedCount fs v₂ ≤ unvisitedCount fs v₁ := by
  unfold unvisitedCount
  refine flt_mono _ _ ?_ _
  intro x hx
  simp only [decide_eq_true_eq] at hx ⊢
  exact fun hmem => hx (hsub x hmem)

lemma unvisited_insert_lt {fs : Fs} {path : List Char} {v : List (List Char)}
    (hmem : path ∈ fs.map Prod.fst) (hv : ¬ path ∈ v) :
    unvisitedCount fs (path :: v) < unvisitedCount fs v := by
  unfold unvisitedCount
  refine flt_lt _ _ ?_ path ?_ ?_ _ ?_
  · intro x hx
    simp only [decide_eq_true_eq] at hx ⊢
    exact fun hmemx => hx (List.mem_cons_of_mem _ hmemx)
  · simpa using hv
  · simp
  · exact List.mem_dedup.2 hmem

lemma fsLookup_mem : ∀ {fs : Fs} {p : List Char} {c : List Char},
    fsLookup fs p = some c → p ∈ fs.map Prod.fst := by
  intro fs
  induction fs with
  | nil => intro p c h; cases h
  | cons e t ih =>
    intro p c h
    obtain ⟨q, d⟩ := e
    simp only [fsLookup] at h
    by_cases hq : q = p
    · subst hq
      exact List.mem_cons_self _ _
    · rw [if_neg hq] at h
      exact List.mem_cons_of_mem _ (ih h)

lemma incFold_grow
    {rd : List (List Char) → List Char → Option (List Char × List (List Char))}
    (hrd : ∀ v p r, rd v p = some r → ∀ x ∈ v, x ∈ r.2) :
    ∀ ps inc vis r, incFold rd ps inc vis = some r → ∀ x ∈ vis, x ∈ r.2 := by
  intro ps
  induction ps with
  | nil =>
    intro inc vis r h x hx
    injection h with h
    rw [← h]
    exact hx
  | cons p ps ih =>
    intro inc vis r h x hx
    simp only [incFold] at h
    cases hr : rd vis p with
    | none =>
      simp only [hr] at h
      exact Option.noConfusion h
    | some r' =>
      simp only [hr] at h
      exact ih _ _ _ h x (hrd _ _ _ hr x hx)

lemma lineFold_grow
    {rd : List (List Char) → List Char → Option (List Char × List (List Char))}
    (hrd : ∀ v p r, rd v p = some r → ∀ x ∈ v, x ∈ r.2) (fs : Fs) (home : List Char) :
    ∀ lines inc res vis r, lineFold rd fs home lines inc res vis = some r →
      ∀ x ∈ vis, x ∈ r.2.2 := by
  intro lines
  induction lines with
  | nil =>
    intro inc res vis r h x hx
    injection h with h
    rw [← h]
    exact hx
  | cons line rest ih =>
    intro inc res vis r h x hx
    simp only [lineFold] at h
    by_cases h1 : (rustTrim line).isEmpty = true ∨ "#".toList.isPrefixOf (rustTrim line) = true
    · rw [if_pos (by simpa using h1)] at h
      exact ih _ _ _ _ h x hx
    · rw [if_neg (by simpa using h1)] at h
      by_cases h2 : "Include ".toList.isPrefixOf (rustTrim line) = true
      · rw [if_pos h2] at h
        cases hf : incFold rd (parse_include_directive fs (rustTrim line) home) inc vis with
        | none =>
          simp only [hf] at h
          exact Option.noConfusion h
        | some r' =>
          simp only [hf] at h
          exact ih _ _ _ _ h x (incFold_grow hrd _ _ _ _ hf x hx)
      · rw [if_neg h2] at h
        exact ih _ _ _ _ h x hx

lemma read_grow : ∀ (fuel : Nat) (fs : Fs) (home : List Char) v p r,
    read_config_file fs home fuel v p = some r → ∀ x ∈ v, x ∈ r.2 := by
  intro fuel
  induction fuel with
  | zero => intro fs home v p r h; cases h
  | succ fuel ih =>
    intro fs home v p r h x hx
    simp only [read_config_file] at h
    by_cases hv : p ∈ v
    · rw [if_pos hv] at h
      injection h with h
      rw [← h]
      exact hx
    · rw [if_neg hv] at h
      cases hl : fsLookup fs p with
      | none =>
        simp only [hl] at h
        injection h with h
        rw [← h]
        exact List.mem_cons_of_mem _ hx
      | some content =>
        simp only [hl] at h
        cases hlf : lineFold (read_config_file fs home fuel) fs home
            (rustLines content) [] [] (p :: v) with
        | none =>
          simp only [hlf] at h
          exact Option.noConfusion h
        | some trip =>
          simp only [hlf] at h
          injection h with h
          rw [← h]
          exact lineFold_grow (fun v' p' r' hr' => ih fs home v' p' r' hr') fs home
            _ _ _ _ _ hlf x (List.mem_cons_of_mem _ hx)

lemma incFold_some
    {rd : List (List Char) → List Char → Option (List Char × List (List Char))}
    {vis₀ : List (List Char)}
    (hsome : ∀ v p, (∀ x ∈ vis₀, x ∈ v) → (rd v p).isSome = true)
    (hgrow : ∀ v p r, rd v p = some r → ∀ x ∈ v, x ∈ r.2) :
    ∀ ps inc vis, (∀ x ∈ vis₀, x ∈ vis) → (incFold rd ps inc vis).isSome = true := by
  intro ps
  induction ps with
  | nil => intro inc vis _; rfl
  | cons p ps ih =>
    intro inc vis hv
    have := hsome vis p hv
    cases hr : rd vis p with
    | none => rw [hr] at this; cases this
    | some r' =>
      simp only [incFold, hr]
      exact ih _ _ (fun x hx => hgrow _ _ _ hr x (hv x hx))

lemma lineFold_some
    {rd : List (List Char) → List Char → Option (List Char × List (List Char))}
    {vis₀ : List (List Char)}
    (hsome : ∀ v p, (∀ x ∈ vis₀, x ∈ v) → (rd v p).isSome = true)
    (hgrow : ∀ v p r, rd v p = some r → ∀ x ∈ v, x ∈ r.2) (fs : Fs) (home : List Char) :
    ∀ lines inc res vis, (∀ x ∈ vis₀, x ∈ vis) →
      (lineFold rd fs home lines inc res vis).isSome = true := by
  intro lines
  induction lines with
  | nil => intro inc res vis _; rfl
  | cons line rest ih =>
    intro inc res vis hv
    simp only [lineFold]
    by_cases h1 : (rustTrim line).isEmpty = true ∨ "#".toList.isPrefixOf (rustTrim line) = true
    · rw [if_pos (by simpa using h1)]
      exact ih _ _ _ hv
    · rw [if_neg (by simpa using h1)]
      by_cases h2 : "Include ".toList.isPrefixOf (rustTrim line) = true
      · rw [if_pos h2]
        have hif := incFold_some hsome hgrow
          (parse_include_directive fs (rustTrim line) home) inc vis hv
        cases hf : incFold rd (parse_include_directive fs (rustTrim line) home) inc vis with
        | none => rw [hf] at hif; cases hif
        | some r' =>
          simp only [hf]
          exact ih _ _ _ (fun x hx => incFold_grow hgrow _ _ _ _ hf x (hv x hx))
      · rw [if_neg h2]
        exact ih _ _ _ hv

lemma read_some : ∀ (fuel : Nat) (fs : Fs) (home : List Char) v p,
    unvisitedCount fs v < fuel →
    (read_config_file fs home fuel v p).isSome = true := by
  intro fuel
  induction fuel with
  | zero => intro fs home v p h; omega
  | succ fuel ih =>
    intro fs home v p hcnt
    simp only [read_config_file]
    by_cases hv : p ∈ v
    · rw [if_pos hv]; rfl
    · rw [if_neg hv]
      cases hl : fsLookup fs p with
      | none => simp only [hl]; rfl
      | some content =>
        simp only [hl]
        have hmem := fsLookup_mem hl
        have hlt : unvisitedCount fs (p :: v) < unvisitedCount fs v :=
          unvisited_insert_lt hmem hv
        have hsome : ∀ v₂ p₂, (∀ x ∈ (p :: v), x ∈ v₂) →
            (read_config_file fs home fuel v₂ p₂).isSome = true := by
          intro v₂ p₂ hsub
          apply ih
          have := unvisited_mono fs (p :: v) v₂ hsub
          omega
        have hgrow : ∀ v' p' r', read_config_file fs home fuel v' p' = some r' →
            ∀ x ∈ v', x ∈ r'.2 := fun v' p' r' hr' => read_grow fuel fs home v' p' r' hr'
        have hlf := lineFold_some hsome hgrow fs home (rustLines content) [] [] (p :: v)
          (fun x hx => hx)
        cases hq : lineFold (read_config_file fs home fuel) fs home
            (rustLines content) [] [] (p :: v) with
        | none => rw [hq] at hlf; cases hlf
        | some trip => simp only [hq]; rfl

/-! ### Lemmas on directive-keyword matching (C7, C8) -/

lemma bool_ne_true {c : Bool} (h : c = false) : ¬ (c = true) := by
  simp [h]

lemma prefB_self_append : ∀ l t : List Char, l.isPrefixOf (l ++ t) = true := by
  intro l
  induction l with
  | nil => intro t; simp [List.isPrefixOf]
  | cons a as ih => intro t; simpa [List.isPrefixOf] using ih t

lemma map_eq_len {k : List Char} {c : List Char}
    (hk : k.map Char.toLower = c) : k.length = c.length := by
  have := congrArg List.length hk
  simpa using this

lemma aD_hostname (home : List Char) (cfg : SshHostConfig) (k v : List Char)
    (hk : k.map Char.toLower = "hostname ".toList) :
    applyDirective home cfg (k ++ v) =
      some { cfg with hostname := some (rustTrim v) } := by
  have hklen : k.length = 9 := map_eq_len hk
  simp only [applyDirective, List.map_append, hk]
  rw [if_pos (prefB_self_append _ _)]
  rw [show (9 : Nat) = k.length from hklen.symm, List.drop_left]

lemma aD_user (home : List Char) (cfg : SshHostConfig) (k v : List Char)
    (hk : k.map Char.toLower = "user ".toList) :
    applyDirective home cfg (k ++ v) =
      some { cfg with user := some (rustTrim v) } := by
  have hklen : k.length = 5 := map_eq_len hk
  simp only [applyDirective, List.map_append, hk]
  have hn0 : "hostname ".toList.isPrefixOf
      ("user ".toList ++ List.map Char.toLower v) = false := rfl
  rw [if_neg (bool_ne_true hn0)]
  rw [if_pos (prefB_self_append _ _)]
  rw [show (5 : Nat) = k.length from hklen.symm, List.drop_left]

lemma aD_port (home : List Char) (cfg : SshHostConfig) (k v : List Char)
    (hk : k.map Char.toLower = "port ".toList) :
    applyDirective home cfg (k ++ v) =
      match parseU16 (rustTrim v) with
      | some p => some { cfg with port := some p }
      | none => some cfg := by
  have hklen : k.length = 5 := map_eq_len hk
  simp only [applyDirective, List.map_append, hk]
  have hn0 : "hostname ".toList.isPrefixOf
      ("port ".toList ++ List.map Char.toLower v) = false := rfl
  have hn1 : "user ".toList.isPrefixOf
      ("port ".toList ++ List.map Char.toLower v) = false := rfl
  rw [if_neg (bool_ne_true hn0)]
  rw [if_neg (bool_ne_true hn1)]
  rw [if_pos (prefB_self_append _ _)]
  rw [show (5 : Nat) = k.length from hklen.symm, List.drop_left]

lemma aD_identity (home : List Char) (cfg : SshHostConfig) (k v : List Char)
    (hk : k.map Char.toLower = "identityfile ".toList) :
    applyDirective home cfg (k ++ v) =
      some { cfg with identity_file := some (expand_path (rustTrim v) home) } := by
  have hklen : k.length = 13 := map_eq_len hk
  simp only [applyDirective, List.map_append, hk]
  have hn0 : "hostname ".toList.isPrefixOf
      ("identityfile ".toList ++ List.map Char.toLower v) = false := rfl
  have hn1 : "user ".toList.isPrefixOf
      ("identityfile ".toList ++ List.map Char.toLower v) = false := rfl
  have hn2 : "port ".toList.isPrefixOf
      ("identityfile ".toList ++ List.map Char.toLower v) = false := rfl
  rw [if_neg (bool_ne_true hn0)]
  rw [if_neg (bool_ne_true hn1)]
  rw [if_neg (bool_ne_true hn2)]
  rw [if_pos (prefB_self_append _ _)]
  rw [show (13 : Nat) = k.length from hklen.symm, List.drop_left]

lemma aD_proxycmd (home : List Char) (cfg : SshHostConfig) (k v : List Char)
    (hk : k.map Char.toLower = "proxycommand ".toList) :
    applyDirective home cfg (k ++ v) =
      (if ((rustTrim v).head? = some '"' ∧ (rustTrim v).getLast? = some '"') ∨
          ((rustTrim v).head? = some '\'' ∧ (rustTrim v).getLast? = some '\'') then
        (if (rustTrim v).length < 2 then none
         else some { cfg with proxy_command :=
             (some (((rustTrim v).drop 1).dropLast)) })
       else some { cfg with proxy_command := (some (rustTrim v)) }) := by
  have hklen : k.length = 13 := map_eq_len hk
  simp only [applyDirective, List.map_append, hk]
  have hn0 : "hostname ".toList.isPrefixOf
      ("proxycommand ".toList ++ List.map Char.toLower v) = false := rfl
  have hn1 : "user ".toList.isPrefixOf
      ("proxycommand ".toList ++ List.map Char.toLower v) = false := rfl
  have hn2 : "port ".toList.isPrefixOf
      ("proxycommand ".toList ++ List.map Char.toLower v) = false := rfl
  have hn3 : "identityfile ".toList.isPrefixOf
      ("proxycommand ".toList ++ List.map Char.toLower v) = false := rfl
  rw [if_neg (bool_ne_true hn0)]
  rw [if_neg (bool_ne_true hn1)]
  rw [if_neg (bool_ne_true hn2)]
  rw [if_neg (bool_ne_true hn3)]
  rw [if_pos (prefB_self_append _ _)]
  rw [show (13 : Nat) = k.length from hklen.symm, List.drop_left]

lemma aD_fdpass (home : List Char) (cfg : SshHostConfig) (k v : List Char)
    (hk : k.map Char.toLower = "proxyusefdpass ".toList) :
    applyDirective home cfg (k ++ v) =
      some { cfg with proxy_use_fdpass := ((rustTrim v).map Char.toLower = "yes".toList ∨
           (rustTrim v).map Char.toLower = "true".toList ∨
           (rustTrim v).map Char.toLower = "1".toList : Prop) } := by
  have hklen : k.length = 15 := map_eq_len hk
  simp only [applyDirective, List.map_append, hk]
  have hn0 : "hostname ".toList.isPrefixOf
      ("proxyusefdpass ".toList ++ List.map Char.toLower v) = false := rfl
  have hn1 : "user ".toList.isPrefixOf
      ("proxyusefdpass ".toList ++ List.map Char.toLower v) = false := rfl
  have hn2 : "port ".toList.isPrefixOf
      ("proxyusefdpass ".toList ++ List.map Char.toLower v) = false := rfl
  have hn3 : "identityfile ".toList.isPrefixOf
      ("proxyusefdpass ".toList ++ List.map Char.toLower v) = false := rfl
  have hn4 : "proxycommand ".toList.isPrefixOf
      ("proxyusefdpass ".toList ++ List.map Char.toLower v) = false := rfl
  rw [if_neg (bool_ne_true hn0)]
  rw [if_neg (bool_ne_true hn1)]
  rw [if_neg (bool_ne_true hn2)]
  rw [if_neg (bool_ne_true hn3)]
  rw [if_neg (bool_ne_true hn4)]
  rw [if_pos (prefB_self_append _ _)]
  rw [show (15 : Nat) = k.length from hklen.symm, List.drop_left]

lemma aD_idonly (home : List Char) (cfg : SshHostConfig) (k v : List Char)
    (hk : k.map Char.toLower = "identitiesonly ".toList) :
    applyDirective home cfg (k ++ v) =
      some { cfg with identities_only := ((rustTrim v).map Char.toLower = "yes".toList ∨
           (rustTrim v).map Char.toLower = "true".toList ∨
           (rustTrim v).map Char.toLower = "1".toList : Prop) } := by
  have hklen : k.length = 15 := map_eq_len hk
  simp only [applyDirective, List.map_append, hk]
  have hn0 : "hostname ".toList.isPrefixOf
      ("identitiesonly ".toList ++ List.map Char.toLower v) = false := rfl
  have hn1 : "user ".toList.isPrefixOf
      ("identitiesonly ".toList ++ List.map Char.toLower v) = false := rfl
  have hn2 : "port ".toList.isPrefixOf
      ("identitiesonly ".toList ++ List.map Char.toLower v) = false := rfl
  have hn3 : "identityfile ".toList.isPrefixOf
      ("identitiesonly ".toList ++ List.map Char.toLower v) = false := rfl
  have hn4 : "proxycommand ".toList.isPrefixOf
      ("identitiesonly ".toList ++ List.map Char.toLower v) = false := rfl
  have hn5 : "proxyusefdpass ".toList.isPrefixOf
      ("identitiesonly ".toList ++ List.map Char.toLower v) = false := rfl
  rw [if_neg (bool_ne_true hn0)]
  rw [if_neg (bool_ne_true hn1)]
  rw [if_neg (bool_ne_true hn2)]
  rw [if_neg (bool_ne_true hn3)]
  rw [if_neg (bool_ne_true hn4)]
  rw [if_neg (bool_ne_true hn5)]
  rw [if_pos (prefB_self_append _ _)]
  rw [show (15 : Nat) = k.length from hklen.symm, List.drop_left]

lemma parse_step_host (home : List Char) (st : ParseSt) (k v : List Char)
    (hk : k.map Char.toLower = "host ".toList)
    (htr : rustTrim (k ++ v) = k ++ v)
    (hne : (rustTrim v).isEmpty = false) :
    parse_step home st (k ++ v) =
      some { cur := some (rustTrim v),
             hosts := if (assocFind st.hosts (rustTrim v)).isSome then st.hosts
                      else st.hosts ++
                        [(rustTrim v, defaultHostConfig (rustTrim v))] } := by
  have hklen : k.length = 5 := map_eq_len hk
  cases k with
  | nil => simp at hklen
  | cons c k' =>
    have hc : Char.toLower c = 'h' := by
      have := congrArg List.head? hk
      simpa using this
    have hcs : ('#' : Char) ≠ c := by
      intro h
      rw [← h] at hc
      exact absurd hc (by decide)
    have hci : ('I' : Char) ≠ c := by
      intro h
      rw [← h] at hc
      exact absurd hc (by decide)
    simp only [parse_step, htr]
    have hc1 : ¬(((c :: k') ++ v).isEmpty = true ∨
        "#".toList.isPrefixOf ((c :: k') ++ v) = true) := by
      intro h
      rcases h with h | h
      · simp at h
      · rw [List.cons_append] at h
        have hb : (('#' : Char) == c) = false := beq_eq_false_iff_ne.2 hcs
        simp [List.isPrefixOf, hb] at h
    have hc2 : ¬("Include ".toList.isPrefixOf ((c :: k') ++ v) = true) := by
      intro h
      rw [List.cons_append] at h
      have hb : (('I' : Char) == c) = false := beq_eq_false_iff_ne.2 hci
      simp [List.isPrefixOf, hb] at h
    have hc3 : "host ".toList.isPrefixOf
        (((c :: k') ++ v).map Char.toLower) = true := by
      rw [List.map_append, hk]
      exact prefB_self_append _ _
    rw [if_neg hc1, if_neg hc2, if_pos hc3]
    rw [show ((c :: k') ++ v).drop 5
        = ((c :: k') ++ v).drop (c :: k').length by rw [hklen], List.drop_left]
    rw [if_neg (bool_ne_true hne)]

lemma lineFold_plain
    (rd : List (List Char) → List Char → Option (List Char × List (List Char)))
    (fs : Fs) (home : List Char) (w : List Char) (rest : List (List Char))
    (inc res : List Char) (vis : List (List Char))
    (htr : rustTrim ('i' :: w) = 'i' :: w) :
    lineFold rd fs home (('i' :: w) :: rest) inc res vis =
      lineFold rd fs home rest inc (res ++ ('i' :: w) ++ ['\n']) vis := by
  simp only [lineFold, htr]
  have hc1 : ¬(('i' :: w).isEmpty = true ∨
      "#".toList.isPrefixOf ('i' :: w) = true) := by
    intro h
    rcases h with h | h
    · simp at h
    · have hb : "#".toList.isPrefixOf ('i' :: w) = false := rfl
      rw [hb] at h
      cases h
  have hc2 : "Include ".toList.isPrefixOf ('i' :: w) = false := rfl
  rw [if_neg hc1, if_neg (bool_ne_true hc2)]

lemma parseU16_le {s : List Char} {n : Nat} (h : parseU16 s = some n) :
    n ≤ 65535 := by
  simp only [parseU16] at h
  split_ifs at h with h1 h2 h3 <;>
    first
      | exact Option.noConfusion h
      | (injection h with h; omega)

lemma containsSub_nil {pat : List Char} (hp : pat ≠ []) :
    containsSub [] pat = false := by
  cases pat with
  | nil => exact absurd rfl hp
  | cons a as =>
    simp [containsSub, listFind, List.isPrefixOf]

lemma noecho_of_nomarker {raw command marker : List Char}
    (h : containsSub raw marker = false) :
    listFind raw (full_command_echo command marker) = none := by
  cases hf : listFind raw (full_command_echo command marker) with
  | none => rfl
  | some i =>
    exfalso
    have hocc := listFind_some_occurs hf
    have hsplit : full_command_echo command marker
        = (command ++ "; echo ".toList) ++ marker := by
      rw [full_command_echo, List.append_assoc]
    rw [hsplit] at hocc
    have := occursAt_append_right hocc
    rw [containsSub_of_occurs this] at h
    cases h

lemma noecho_finish {raw command marker : List Char}
    (hne : listFind raw (full_command_echo command marker) = none)
    (hesc : escChar ∉ raw) :
    listFind (finishOutput raw).stdout (full_command_echo command marker) = none := by
  have hclean : clean_ansi_sequences raw = raw := clean_ansi_id hesc
  have hstdout : (finishOutput raw).stdout = rustTrimEnd raw := by
    simp [finishOutput, hclean]
  rw [hstdout]
  cases hf : listFind (rustTrimEnd raw) (full_command_echo command marker) with
  | none => rfl
  | some i =>
    exfalso
    obtain ⟨t, ht⟩ := rustTrimEnd_decomp raw
    have hc : containsSub (rustTrimEnd raw) (full_command_echo command marker) = true := by
      unfold containsSub
      rw [hf]
      rfl
    have := containsSub_of_decomp ht hc
    unfold containsSub at this
    rw [hne] at this
    cases this

/-! ## Claim theorems -/

/-- C1 (amended): after the drain phase `execute_command` truncates the buffer
at the position returned by `find_last_marker_position`, which is the last
occurrence of the marker found by a forward non-overlapping scan — own-line
status (being preceded by a newline or at position 0) is never considered, and
an occurrence embedded mid-line is used when it is the last one found.
Precisely: when the scan returns `some p`, the truncation keeps `output.take p`,
the marker occurs at `p`, and no occurrence starts at or after
`p + marker.length`; when it returns `none`, the marker does not occur at all. -/
theorem c1_marker_truncation (output marker : List Char) (hm : marker ≠ []) :
    (∀ p, find_last_marker_position output marker = some p →
      truncateAtLastMarker output marker = output.take p ∧
      marker <+: output.drop p ∧
      ∀ q, p + marker.length ≤ q → ¬ marker <+: output.drop q) ∧
    (find_last_marker_position output marker = none →
      ∀ q, ¬ marker <+: output.drop q) := by
  constructor
  · intro p hp
    refine ⟨?_, (find_last_some hm hp).1, (find_last_some hm hp).2⟩
    unfold truncateAtLastMarker
    rw [hp]
  · exact fun h => find_last_none hm h

/-- Witness for C1: on `"a\nZ__M__b"` the scan finds the occurrence at 2 and
the truncation keeps the first two characters. -/
theorem c1_marker_truncation_w :
    truncateAtLastMarker "a\n__M__b".toList "__M__".toList
      = ("a\n__M__b".toList).take 2 :=
  ((c1_marker_truncation "a\n__M__b".toList "__M__".toList (by decide)).1 2
    (by rfl)).1

/-- Counterexample to C1 as stated: the code truncates at the *last occurrence
anywhere*, not at the last own-line occurrence.  In `"__M__\nx__M__y"` the last
own-line occurrence (per the spec rule, position 0) differs from the position
the code uses (7, embedded after `x`); and in a full `execute_command` run
whose drain phase was cut short, the buffer
`"c; echo __M__\r\n__M__\r\nfoo __M__bar"` is truncated at the embedded
occurrence 26 although the last own-line occurrence is 15, so the call returns
`"\r\n__M__\r\nfoo"` instead of the spec-rule result. -/
theorem c1_marker_truncation_cx :
    find_last_marker_position "__M__\nx__M__y".toList "__M__".toList = some 7 ∧
    specOwnLineLastMarker "__M__\nx__M__y".toList "__M__".toList = some 0 ∧
    truncateAtLastMarker "__M__\nx__M__y".toList "__M__".toList
      = "__M__\nx".toList ∧
    find_last_marker_position
      "c; echo __M__\r\n__M__\r\nfoo __M__bar".toList "__M__".toList = some 26 ∧
    specOwnLineLastMarker
      "c; echo __M__\r\n__M__\r\nfoo __M__bar".toList "__M__".toList = some 15 ∧
    execute_command "c".toList "__M__".toList
        [(false, ChanEv.chunk "c; echo __M__\r\n__M__\r\nfoo __M__bar".toList)]
      = Except.ok ⟨"\r\n__M__\r\nfoo".toList, []⟩ :=
  ⟨rfl, rfl, rfl, rfl, rfl, rfl⟩

/-- C5 (amended): `CommandOutput::combined` itself does not add any label; the
`STDERR:\n` label is inserted by the MCP tool rendering (`ssh_run_command_impl`
lines 162-173, embedded as `resultText`), immediately before the stderr
segment, whenever stderr is non-empty after trimming. -/
theorem c5_stderr_label (o : CommandOutput)
    (h : (rustTrim o.stderr).isEmpty = false) :
    ∃ pre, resultText o = pre ++ "STDERR:\n".toList ++ o.stderr := by
  simp only [resultText]
  rw [if_neg (bool_ne_true h)]
  exact ⟨_, rfl⟩

/-- Witness for C5 on a concrete output with non-empty stderr. -/
theorem c5_stderr_label_w :
    ∃ pre, resultText ⟨"a".toList, "b".toList⟩
      = pre ++ "STDERR:\n".toList ++ "b".toList :=
  c5_stderr_label ⟨"a".toList, "b".toList⟩ rfl

/-- Counterexample to C5 as stated: `CommandOutput::combined` produces
`"a\nb"` for stdout `"a"`, stderr `"b"` — it contains no `STDERR:\n` label at
all (the label lives in the tool layer, not in `combined`). -/
theorem c5_stderr_label_cx :
    (rustTrim (CommandOutput.mk "a".toList "b".toList).stderr).isEmpty = false ∧
    (CommandOutput.mk "a".toList "b".toList).combined = "a\nb".toList ∧
    containsSub (CommandOutput.mk "a".toList "b".toList).combined
      "STDERR:\n".toList = false :=
  ⟨rfl, rfl, rfl⟩

/-- C6 (confirmed): whenever the read loop reaches the top of an iteration
with the 30-second deadline elapsed (the `true` flag, channel.rs line 139)
before any earlier iteration broke out, `execute_command` fails with the
timeout error and returns no `CommandOutput` — the accumulated buffer is
discarded.  The hypothesis says the loop is still running after `evs₁`
(`starved` = script exhausted with no break). -/
theorem c6_timeout_discards (command marker : List Char)
    (evs₁ : List (Bool × ChanEv)) (ev : ChanEv) (rest : List (Bool × ChanEv))
    (stdout : List Char) (noData : Nat)
    (h : execLoop command marker evs₁ stdout noData = LoopRes.starved) :
    executeCommandFrom command marker (evs₁ ++ (true, ev) :: rest) stdout noData
      = Except.error timeoutMsg ∧
    ∀ o, executeCommandFrom command marker (evs₁ ++ (true, ev) :: rest)
      stdout noData ≠ Except.ok o := by
  have ht := execLoop_starved_extend ev rest h
  unfold executeCommandFrom
  rw [ht]
  exact ⟨rfl, fun o hc => Except.noConfusion hc⟩

/-- Witness for C6: one uneventful tick, then an iteration that starts with
the deadline elapsed. -/
theorem c6_timeout_discards_w :
    executeCommandFrom "c".toList "M".toList
        ([(false, ChanEv.tick false)] ++ (true, ChanEv.tick false) :: []) [] 0
      = Except.error timeoutMsg :=
  (c6_timeout_discards "c".toList "M".toList [(false, ChanEv.tick false)]
    (ChanEv.tick false) [] [] 0 (by rfl)).1

/-- C7 (amended): a `Port` directive is parsed with Rust `u16` semantics —
optional leading `+`, decimal digits, range 0 to 65535 (zero included, contrary
to the claimed 1–65535); on parse failure (non-numeric or out of u16 range)
the `port` field is silently left unchanged and no other field is affected.
The `Port` branch resolves before the ProxyCommand branch, so the directive
chain always returns normally (`some`) here. -/
theorem c7_port_parse (home : List Char) (cfg : SshHostConfig) (k v : List Char)
    (hk : k.map Char.toLower = "port ".toList) :
    (applyDirective home cfg (k ++ v) =
      match parseU16 (rustTrim v) with
      | some p => some { cfg with port := some p }
      | none => some cfg) ∧
    (∀ n, parseU16 (rustTrim v) = some n → n ≤ 65535) :=
  ⟨aD_port home cfg k v hk, fun _ h => parseU16_le h⟩

/-- Witness for C7: `Port 0` sets the port to 0; the parsed value is within
the u16 bound. -/
theorem c7_port_parse_w :
    applyDirective [] (defaultHostConfig "a".toList)
        ("Port ".toList ++ "0".toList)
      = some { defaultHostConfig "a".toList with port := some 0 } :=
  ((c7_port_parse [] (defaultHostConfig "a".toList) "Port ".toList "0".toList
    (by decide)).1).trans (by rfl)

/-- Counterexample to C7 as stated: the claim restricts accepted values to
1–65535, but `"0"` parses as a `u16` and the code sets `port = Some(0)` — it
is not left unset.  Shown on the full parse pipeline and on the value parser
(`"22xx"` and `"70000"` do fail and leave the field unset, `"+22"` parses). -/
theorem c7_port_parse_cx :
    parse_ssh_config [("/h/.ssh/config".toList, "Host a\nPort 0\n".toList)]
        "/h".toList "a".toList
      = some { host := "a".toList, hostname := none, user := none,
               port := some 0, identity_file := none, proxy_command := none,
               proxy_use_fdpass := false, identities_only := false } ∧
    parseU16 "0".toList = some 0 ∧
    parseU16 "22xx".toList = none ∧
    parseU16 "70000".toList = none ∧
    parseU16 "+22".toList = some 22 :=
  ⟨rfl, rfl, rfl, rfl, rfl⟩

/-- C10 (confirmed): whenever the combined output of a completed command
contains `"[sudo] password"` or `"Password:"`, the `ssh_run_command` tool
returns an error rather than the captured output — the check is a plain
substring test on the output, so it fires even when the text is benign command
output rather than a real elevation prompt. -/
theorem c10_prompt_always_errors (o : CommandOutput)
    (h : containsSub o.combined "[sudo] password".toList = true ∨
         containsSub o.combined "Password:".toList = true) :
    ∀ t, ssh_run_command_check o ≠ Except.ok t := by
  intro t hc
  unfold ssh_run_command_check at hc
  rw [if_pos h] at hc
  exact Except.noConfusion hc

/-- Witness for C10: benign output that merely quotes a log line containing
`Password:` is still rejected. -/
theorem c10_prompt_always_errors_w :
    ssh_run_command_check ⟨"cat log: Password: required".toList, []⟩ ≠
      Except.ok "cat log: Password: required".toList :=
  c10_prompt_always_errors ⟨"cat log: Password: required".toList, []⟩
    (Or.inr (by rfl)) "cat log: Password: required".toList

/-- C2 (amended): the executor performs no interactive prompt handling at all:
its complete channel-write trace is the single initial command line (there is
no way to pass an elevation password to `execute_command`, whose only
parameter is the command, and the MCP tool parameters carry only host and
command); the prompt substrings are only checked after the command completes,
by the MCP tool layer, which then fails the call with the fixed
`sudoErrMsg` error naming the sudo password. -/
theorem c2_prompt_handling (command marker : List Char) :
    executeCommandWrites command marker = [mkFullCommand command marker] ∧
    ∀ o : CommandOutput,
      (containsSub o.combined "[sudo] password".toList = true ∨
       containsSub o.combined "Password:".toList = true) →
      ssh_run_command_check o = Except.error sudoErrMsg := by
  refine ⟨rfl, ?_⟩
  intro o h
  unfold ssh_run_command_check
  rw [if_pos h]

/-- Witness for C2 (amended) at concrete inputs. -/
theorem c2_prompt_handling_w :
    executeCommandWrites "x".toList "M".toList
      = [mkFullCommand "x".toList "M".toList] ∧
    ssh_run_command_check ⟨"Password:".toList, []⟩ = Except.error sudoErrMsg :=
  ⟨(c2_prompt_handling "x".toList "M".toList).1,
   (c2_prompt_handling "x".toList "M".toList).2 ⟨"Password:".toList, []⟩
     (Or.inr (by rfl))⟩

/-- Counterexample to C2 as stated: a command whose output contains
`"Password:"` completes successfully at the executor — `execute_command`
returns `Ok` with the captured output, writes nothing to the channel beyond
the initial command line (no `<password>\n` write exists), and no
PromptUnanswered-style failure happens there; the only reaction is the
post-hoc fixed error of the MCP tool layer. -/
theorem c2_prompt_handling_cx :
    executeCommandWrites "x".toList "__SSH_CMD_DONE_9__".toList
      = [mkFullCommand "x".toList "__SSH_CMD_DONE_9__".toList] ∧
    execute_command "x".toList "__SSH_CMD_DONE_9__".toList
        [(false, ChanEv.chunk
          "x; echo __SSH_CMD_DONE_9__\r\nPassword:\r\n__SSH_CMD_DONE_9__\r\n".toList)]
      = Except.ok ⟨"\r\nPassword:".toList, []⟩ ∧
    containsSub (CommandOutput.mk "\r\nPassword:".toList []).combined
      "Password:".toList = true ∧
    ssh_run_command_check ⟨"\r\nPassword:".toList, []⟩
      = Except.error sudoErrMsg :=
  ⟨rfl, rfl, rfl, rfl⟩

/-- C3 (amended): on the marker-confirmed path the retained buffer contains no
occurrence of the literal `"<command>; echo <marker>"` (the removal loop
excises them all), and for every successful call over an ESC-free stream the
returned stdout contains no such occurrence either; the sentinel marker
itself may however survive in the returned stdout (occurrences before the
final one are kept by the truncation — see the counterexample). -/
theorem c3_echo_removal (command marker : List Char)
    (script : List (Bool × ChanEv)) (hm : marker ≠ []) :
    (∀ raw, execLoop command marker script [] 0 = LoopRes.out true raw →
      listFind raw (full_command_echo command marker) = none) ∧
    (∀ out, execute_command command marker script = Except.ok out →
      escFreeScript script = true →
      listFind out.stdout (full_command_echo command marker) = none) := by
  have hclause1 : ∀ raw, execLoop command marker script [] 0 = LoopRes.out true raw →
      listFind raw (full_command_echo command marker) = none := by
    intro raw h
    obtain ⟨x, hx⟩ := execLoop_out_true h
    rw [hx]
    exact remove_command_echo_clean x command marker
  refine ⟨hclause1, ?_⟩
  intro out hok hfree
  unfold execute_command executeCommandFrom at hok
  cases hE : execLoop command marker script [] 0 with
  | timeout => rw [hE] at hok; exact Except.noConfusion hok
  | starved => rw [hE] at hok; exact Except.noConfusion hok
  | out conf raw =>
    rw [hE] at hok
    injection hok with hok
    rw [← hok]
    have hesc : escChar ∉ raw :=
      execLoop_out_esc hfree (List.not_mem_nil _) hE
    cases conf with
    | true => exact noecho_finish (hclause1 raw hE) hesc
    | false =>
      have hnm : containsSub raw marker = false :=
        execLoop_out_false (containsSub_nil hm) hE
      exact noecho_finish (noecho_of_nomarker hnm) hesc

/-- Witness for C3 at a concrete marker-confirmed run. -/
theorem c3_echo_removal_w :
    listFind "\r\nhello\r\n".toList
      (full_command_echo "c".toList "M".toList) = none ∧
    listFind "\r\nhello".toList
      (full_command_echo "c".toList "M".toList) = none :=
  ⟨(c3_echo_removal "c".toList "M".toList
      [(false, ChanEv.chunk "c; echo M\r\nhello\r\nM\r\n".toList)]
      (by decide)).1 "\r\nhello\r\n".toList (by rfl),
   (c3_echo_removal "c".toList "M".toList
      [(false, ChanEv.chunk "c; echo M\r\nhello\r\nM\r\n".toList)]
      (by decide)).2 ⟨"\r\nhello".toList, []⟩ (by rfl) (by rfl)⟩

/-- Counterexample to C3 as stated: a successful call whose returned stdout
*contains the sentinel marker*.  The command output itself contains the marker
text; truncation at the last occurrence keeps the earlier ones, and echo
removal only excises the full `"<command>; echo <marker>"` string. -/
theorem c3_echo_removal_cx :
    execute_command "c".toList "__M__".toList
        [(false, ChanEv.chunk "c; echo __M__\r\nA __M__ B\r\n__M__\r\n".toList)]
      = Except.ok ⟨"\r\nA __M__ B".toList, []⟩ ∧
    containsSub "\r\nA __M__ B".toList "__M__".toList = true :=
  ⟨rfl, rfl⟩

/-- C4 (amended): every value returned by `execute_command` has stdout with no
trailing whitespace character (the final `trim_end`); and when the stream
contains no ESC character at all, the returned stdout contains no CSI, OSC or
DCS/APC/PM sequence.  The unconditional no-escape-sequence guarantee of the
claim fails: each regex pass runs once, and a removal can splice the
surrounding text into a new escape sequence (see the counterexample). -/
theorem c4_output_clean (command marker : List Char)
    (script : List (Bool × ChanEv)) (out : CommandOutput)
    (h : execute_command command marker script = Except.ok out) :
    (∀ c, out.stdout.getLast? = some c → rustIsWhitespace c = false) ∧
    (escFreeScript script = true →
      hasCsiSeq out.stdout = false ∧ hasOscSeq out.stdout = false ∧
      hasDcsSeq out.stdout = false) := by
  unfold execute_command executeCommandFrom at h
  cases hE : execLoop command marker script [] 0 with
  | timeout => rw [hE] at h; exact Except.noConfusion h
  | starved => rw [hE] at h; exact Except.noConfusion h
  | out conf raw =>
    rw [hE] at h
    injection h with h
    rw [← h]
    constructor
    · intro c hc
      exact rustTrimEnd_no_trailing hc
    · intro hfree
      have hesc : escChar ∉ raw :=
        execLoop_out_esc hfree (List.not_mem_nil _) hE
      have hstdout : (finishOutput raw).stdout = rustTrimEnd raw := by
        simp [finishOutput, clean_ansi_id hesc]
      have hescs : escChar ∉ (finishOutput raw).stdout := by
        rw [hstdout]
        intro hmem
        exact hesc (rustTrimEnd_mem hmem)
      refine ⟨?_, ?_, ?_⟩
      · cases hx : hasCsiSeq (finishOutput raw).stdout
        · rfl
        · exact absurd (hasCsiSeq_esc hx) hescs
      · cases hx : hasOscSeq (finishOutput raw).stdout
        · rfl
        · exact absurd (hasOscSeq_esc hx) hescs
      · cases hx : hasDcsSeq (finishOutput raw).stdout
        · rfl
        · exact absurd (hasDcsSeq_esc hx) hescs

/-- Witness for C4 at a concrete successful run. -/
theorem c4_output_clean_w :
    rustIsWhitespace 't' = false ∧
    hasCsiSeq "\r\nout".toList = false :=
  ⟨(c4_output_clean "p".toList "K".toList
      [(false, ChanEv.chunk "p; echo K\r\nout\r\nK\r\n".toList)]
      ⟨"\r\nout".toList, []⟩ (by rfl)).1 't' (by rfl),
   ((c4_output_clean "p".toList "K".toList
      [(false, ChanEv.chunk "p; echo K\r\nout\r\nK\r\n".toList)]
      ⟨"\r\nout".toList, []⟩ (by rfl)).2 (by rfl)).1⟩

/-- Counterexample to C4 as stated: the OSC pass removes `ESC ] a BEL` from
between `ESC [` and `0m`, splicing a brand-new CSI sequence `ESC [ 0 m` into
the returned stdout — the promised absence of CSI sequences fails. -/
theorem c4_output_clean_cx :
    execute_command "c".toList "M".toList
        [(false, ChanEv.chunk "c; echo M\r\n\x1b[\x1b]a\x070m\r\nM\r\n".toList)]
      = Except.ok ⟨"\r\n\x1b[0m".toList, []⟩ ∧
    hasCsiSeq "\r\n\x1b[0m".toList = true :=
  ⟨rfl, rfl⟩

/-- C8 (amended): the directive keywords `Host`, `HostName`, `User`, `Port`,
`IdentityFile`, `ProxyCommand`, `ProxyUseFdpass` and `IdentitiesOnly` are
matched case-insensitively (any spelling whose lowercase form equals the
keyword triggers the directive, with the value sliced after the keyword), but
`Include` is matched case-sensitively: only a line starting with the exact
text `"Include "` is expanded, and a lowercase `include` line is treated as
ordinary content by the include expander (last clause).  The ProxyCommand
clause reproduces the source's abort (`none`, the slice panic of config.rs
line 172) when the trimmed value is a single quote character, and the stripped
value otherwise. -/
theorem c8_keyword_case (home : List Char) (cfg : SshHostConfig) (st : ParseSt) :
    (∀ k v, k.map Char.toLower = "hostname ".toList →
      applyDirective home cfg (k ++ v) =
        some { cfg with hostname := some (rustTrim v) }) ∧
    (∀ k v, k.map Char.toLower = "user ".toList →
      applyDirective home cfg (k ++ v) =
        some { cfg with user := some (rustTrim v) }) ∧
    (∀ k v, k.map Char.toLower = "port ".toList →
      applyDirective home cfg (k ++ v) =
        match parseU16 (rustTrim v) with
        | some p => some { cfg with port := some p }
        | none => some cfg) ∧
    (∀ k v, k.map Char.toLower = "identityfile ".toList →
      applyDirective home cfg (k ++ v) =
        some { cfg with identity_file := some (expand_path (rustTrim v) home) }) ∧
    (∀ k v, k.map Char.toLower = "proxycommand ".toList →
      applyDirective home cfg (k ++ v) =
        (if ((rustTrim v).head? = some '"' ∧
            (rustTrim v).getLast? = some '"') ∨
            ((rustTrim v).head? = some '\'' ∧
            (rustTrim v).getLast? = some '\'') then
          (if (rustTrim v).length < 2 then none
           else some { cfg with proxy_command :=
               (some (((rustTrim v).drop 1).dropLast)) })
         else some { cfg with proxy_command := (some (rustTrim v)) })) ∧
    (∀ k v, k.map Char.toLower = "proxyusefdpass ".toList →
      applyDirective home cfg (k ++ v) =
        some { cfg with proxy_use_fdpass :=
            ((rustTrim v).map Char.toLower = "yes".toList ∨
             (rustTrim v).map Char.toLower = "true".toList ∨
             (rustTrim v).map Char.toLower = "1".toList : Prop) }) ∧
    (∀ k v, k.map Char.toLower = "identitiesonly ".toList →
      applyDirective home cfg (k ++ v) =
        some { cfg with identities_only :=
            ((rustTrim v).map Char.toLower = "yes".toList ∨
             (rustTrim v).map Char.toLower = "true".toList ∨
             (rustTrim v).map Char.toLower = "1".toList : Prop) }) ∧
    (∀ k v, k.map Char.toLower = "host ".toList →
      rustTrim (k ++ v) = k ++ v → (rustTrim v).isEmpty = false →
      parse_step home st (k ++ v) =
        some { cur := some (rustTrim v),
               hosts := if (assocFind st.hosts (rustTrim v)).isSome then st.hosts
                        else st.hosts ++
                          [(rustTrim v, defaultHostConfig (rustTrim v))] }) ∧
    (∀ (rd : List (List Char) → List Char →
          Option (List Char × List (List Char)))
        (fs : Fs) (w : List Char) (rest : List (List Char))
        (inc res : List Char) (vis : List (List Char)),
      rustTrim ('i' :: w) = 'i' :: w →
      lineFold rd fs home (('i' :: w) :: rest) inc res vis =
        lineFold rd fs home rest inc (res ++ ('i' :: w) ++ ['\n']) vis) :=
  ⟨fun k v hk => aD_hostname home cfg k v hk,
   fun k v hk => aD_user home cfg k v hk,
   fun k v hk => aD_port home cfg k v hk,
   fun k v hk => aD_identity home cfg k v hk,
   fun k v hk => aD_proxycmd home cfg k v hk,
   fun k v hk => aD_fdpass home cfg k v hk,
   fun k v hk => aD_idonly home cfg k v hk,
   fun k v hk htr hne => parse_step_host home st k v hk htr hne,
   fun rd fs w rest inc res vis htr =>
     lineFold_plain rd fs home w rest inc res vis htr⟩

/-- Witness for C8: an upper-case `HOSTNAME` spelling triggers the hostname
directive, a mixed-case `PROXYCOMMAND "` line (value trimming to a single
quote character) hits the modelled slice panic, and a lowercase `include`
line is passed through as plain content by the include expander. -/
theorem c8_keyword_case_w :
    applyDirective [] (defaultHostConfig "a".toList)
        ("HOSTNAME ".toList ++ "h1".toList)
      = some { defaultHostConfig "a".toList with hostname := some "h1".toList } ∧
    applyDirective [] (defaultHostConfig "a".toList)
        ("PROXYCOMMAND ".toList ++ "\"".toList)
      = none ∧
    lineFold (fun _ _ => none) [] [] ["include /x".toList] [] [] []
      = lineFold (fun _ _ => none) [] [] [] []
          ("include /x".toList ++ ['\n']) [] := by
  refine ⟨(c8_keyword_case [] (defaultHostConfig "a".toList)
      ⟨none, []⟩).1 "HOSTNAME ".toList "h1".toList (by decide), ?_, ?_⟩
  · exact ((c8_keyword_case [] (defaultHostConfig "a".toList)
      ⟨none, []⟩).2.2.2.2.1 "PROXYCOMMAND ".toList "\"".toList
      (by decide)).trans (by rfl)
  · have h := (c8_keyword_case [] (defaultHostConfig "a".toList)
      ⟨none, []⟩).2.2.2.2.2.2.2.2 (fun _ _ => none) []
      "nclude /x".toList [] [] [] [] (by rfl)
    simpa using h

/-- Counterexample to C8 as stated: changing `Include` to `include` changes
the parsed result.  With the included file declaring `Host a`, the upper-case
spelling resolves alias `a`; the lowercase spelling is not expanded (and the
leftover line matches no directive), so resolution fails. -/
theorem c8_keyword_case_cx :
    parse_ssh_config
        [("/h/.ssh/config".toList, "Include /inc\n".toList),
         ("/inc".toList, "Host a\nHostName h1\n".toList)]
        "/h".toList "a".toList
      = some { host := "a".toList, hostname := some "h1".toList, user := none,
               port := none, identity_file := none, proxy_command := none,
               proxy_use_fdpass := false, identities_only := false } ∧
    parse_ssh_config
        [("/h/.ssh/config".toList, "include /inc\n".toList),
         ("/inc".toList, "Host a\nHostName h1\n".toList)]
        "/h".toList "a".toList
      = none :=
  ⟨rfl, rfl⟩

/-- C9 (confirmed): the include expansion terminates on every input, cyclic
includes included: a visited set of paths is threaded through the whole
traversal, revisiting an already-visited path yields empty content without
touching the filesystem, and the nesting depth of file opens is bounded by the
number of distinct not-yet-visited paths — fuel one larger than that bound
always suffices (`isSome`), for any filesystem, any starting visited set and
any path. -/
theorem c9_include_terminates (fs : Fs) (home : List Char)
    (visited : List (List Char)) (path : List Char) :
    (read_config_file fs home (unvisitedCount fs visited + 1) visited
      path).isSome = true ∧
    (path ∈ visited → ∀ fuel : Nat,
      read_config_file fs home (fuel + 1) visited path = some ([], visited)) := by
  constructor
  · exact read_some (unvisitedCount fs visited + 1) fs home visited path (by omega)
  · intro hv fuel
    simp only [read_config_file]
    rw [if_pos hv]

/-- Witness for C9 on a two-file include cycle (A includes B includes A). -/
theorem c9_include_terminates_w :
    (read_config_file
        [("/h/.ssh/config".toList, "Include /b\nHost a\nHostName ha\n".toList),
         ("/b".toList, "Include /h/.ssh/config\nHost b\nHostName hb\n".toList)]
        "/h".toList
        (unvisitedCount
          [("/h/.ssh/config".toList, "Include /b\nHost a\nHostName ha\n".toList),
           ("/b".toList, "Include /h/.ssh/config\nHost b\nHostName hb\n".toList)]
          [] + 1)
        [] "/h/.ssh/config".toList).isSome = true ∧
    read_config_file [] "/h".toList 1 ["/x".toList] "/x".toList
      = some ([], ["/x".toList]) :=
  ⟨(c9_include_terminates _ "/h".toList [] "/h/.ssh/config".toList).1,
   (c9_include_terminates [] "/h".toList ["/x".toList] "/x".toList).2
     (by decide) 0⟩

end SshLiaison
